import Mathlib

/-!
Verification of the ingredient consolidation subsystem of the boh-infra
repository.

Two bodies of code are embedded here:

* The CSV shopping-list core (validator, unit table, quantity normalizer,
  ingredient key resolver, consolidator).  The repository's README documents
  this core as `make_shopping_list.py`, but the script itself is not present
  in the source tree; only its documentation is.  Those components are
  therefore modelled from the specification (sections 4.1-4.5 and 6), as
  noted on each definition.

* The React shopping-list component (`ShoppingList`) with its
  `consolidateIngredients` and `togglePurchased` functions, and the cinematic
  intro's `parseTextWithHighlights`, which are present in the source and are
  embedded directly from it.

Quantities and prices are modelled as rationals; the JavaScript/Python
numbers are IEEE doubles, and the algebraic claims below are about the
algorithm, not float rounding.
-/

namespace BohInfra

/-! ## String utilities -/

/-- ASCII whitespace test used by trimming, blank tests and word splitting. -/
def isWSb (c : Char) : Bool :=
  c.toNat == 32 || c.toNat == 9 || c.toNat == 10 || c.toNat == 13

/-- A string is blank when every character is whitespace, i.e. it is absent
after trimming. -/
def isBlank (cs : List Char) : Bool := cs.all isWSb

/-- Lowercase a character list (ASCII case folding, as `str.lower` /
`toLowerCase` on the ASCII range). -/
def lowerList (cs : List Char) : List Char := cs.map Char.toLower

/-- Case-insensitive equality of strings. -/
def eqCI (a b : String) : Bool := lowerList a.data == lowerList b.data

/-- Split a character list into maximal whitespace-free words.
`acc` holds the (reversed) characters of the word currently being read. -/
def wordsAux : List Char → List Char → List (List Char)
  | [], acc => if acc = [] then [] else [acc.reverse]
  | c :: cs, acc =>
    if isWSb c then
      if acc = [] then wordsAux cs [] else acc.reverse :: wordsAux cs []
    else wordsAux cs (c :: acc)

/-- Join words with single spaces. -/
def joinWords : List (List Char) → List Char
  | [] => []
  | [w] => w
  | w :: ws => w ++ ' ' :: joinWords ws

/-- Canonical ingredient name characters: lowercase, trim, and collapse
internal whitespace (spec section 4.3). -/
def canonChars (cs : List Char) : List Char :=
  joinWords (wordsAux (lowerList cs) [])

/-- Canonical ingredient name: trimming whitespace, lowercasing, and
collapsing internal whitespace.  Modelled from the spec: section 4.3's
`canonicalIngredientName` of the absent `make_shopping_list.py`. -/
def canonicalName (s : String) : String := ⟨canonChars s.data⟩

/-- Does `pat` occur at the head of `cs`? -/
def leadsWith : List Char → List Char → Bool
  | [], _ => true
  | _ :: _, [] => false
  | p :: ps, c :: cs => p == c && leadsWith ps cs

/-- Substring test: does `pat` occur anywhere inside `cs`? -/
def hasSub (pat : List Char) : List Char → Bool
  | [] => leadsWith pat []
  | c :: cs => leadsWith pat (c :: cs) || hasSub pat cs

/-! ## Data model of the consolidation core

Modelled from the spec: the data model of `make_shopping_list.py`
(spec section 3), which is documented by the repository README but not
present in the source tree. -/

/-- A category of measurement within which units are convertible. -/
inductive Dimension
  | volume
  | weight
  | count
deriving DecidableEq, Repr

/-- A unit with its aliases, dimension and linear factor to the dimension's
base unit. -/
structure UnitDefinition where
  name : String
  aliases : List String
  dimension : Dimension
  factorToBase : ℚ
deriving DecidableEq, Repr

/-- An ingredient-specific volume-to-weight conversion factor. -/
structure DensityOverride where
  ingredientNamePattern : String
  fromUnit : String
  toBaseWeightFactor : ℚ
deriving DecidableEq, Repr

/-- The immutable unit table: unit definitions, density overrides, and the
name of the base unit of each dimension. -/
structure UnitTable where
  units : List UnitDefinition
  overrides : List DensityOverride
  baseUnitName : Dimension → String

/-- Configuration of one consolidation run (spec section 6). -/
structure ConsolidationConfig where
  defaultQuantity : ℚ
  defaultPrice : ℚ
  defaultLocation : String
  defaultUnit : String
  defaultIngredientName : String
  unitConversionEnabled : Bool

/-- A raw field value as it arrives from CSV text: missing, present but
non-numeric, or a number. -/
inductive RawValue
  | missing
  | invalid (raw : String)
  | num (q : ℚ)
deriving DecidableEq, Repr

/-- An input row before validation (spec section 3, `IngredientLine`). -/
structure RawRow where
  dishName : Option String
  ingredientName : Option String
  quantity : RawValue
  unit : Option String
  location : Option String
  price : RawValue
  purchased : Option Bool
  notes : Option String
deriving DecidableEq, Repr

/-- A row with all optional fields defaulted (spec section 3,
`ValidatedLine`). -/
structure ValidatedLine where
  dishName : Option String
  ingredientName : String
  quantity : ℚ
  unit : String
  location : String
  price : ℚ
  rowIndex : Nat
deriving DecidableEq, Repr

/-- The reason a validation warning was emitted. -/
inductive WarningKind
  | invalidQuantity (raw : String)
  | missingQuantity
  | nonpositiveQuantity
  | missingUnit
  | missingLocation
  | negativePrice
deriving DecidableEq, Repr

/-- A warning attributed to a 1-based input row. -/
structure ValidationWarning where
  rowIndex : Nat
  kind : WarningKind
deriving DecidableEq, Repr

/-- A validated line together with its normalized quantity (spec section 3,
`NormalizedLine`). -/
structure NormalizedLine where
  line : ValidatedLine
  baseQuantity : ℚ
  baseUnit : String
  dimension : Dimension
  conversionApplied : Option String
deriving DecidableEq, Repr

/-- The third component of a group key: when unit conversion is enabled, the
dimension together with the base unit the quantity was normalized to (an
unresolvable unit keeps its own verbatim text as base unit, so it can only
merge with identically-unitted lines, spec section 4.2 step 1 and the
conservative-merge example of section 4.3); when conversion is disabled, the
raw unit text. -/
inductive UnitKey
  | dim (d : Dimension) (baseUnit : String)
  | raw (u : String)
deriving DecidableEq, Repr

/-- The grouping key of the ingredient key resolver (spec section 4.3). -/
structure GroupKey where
  location : String
  name : String
  unitKey : UnitKey
deriving DecidableEq, Repr

/-- One consolidated output item (spec section 3, `ConsolidatedItem`). -/
structure ConsolidatedItem where
  key : GroupKey
  location : String
  ingredientName : String
  totalQuantity : ℚ
  unit : String
  totalPrice : ℚ
  sourceLines : List NormalizedLine
deriving DecidableEq, Repr

/-- The result of one consolidation run (spec section 6,
`ConsolidationResult`). -/
structure ConsolidationResult where
  items : List ConsolidatedItem
  totalRowsProcessed : Nat
  rowsSkipped : Nat
  warnings : List ValidationWarning
  conversionsApplied : List String

/-! ## Validator

Modelled from the spec: section 4.5's `validate` of the absent
`make_shopping_list.py`: the row is skipped iff the ingredient name is blank
after trimming; quantity is defaulted when missing or non-numeric (warning),
then clamped to the default when zero or negative (warning); unit and
location are defaulted when missing (warning each); a negative price is
clamped to the default price (warning); a missing or non-numeric price is
defaulted silently. -/

/-- Validated quantity: defaulted when missing or non-numeric (with a
warning naming the offending raw value), then clamped to the default when
zero or negative after defaulting (warning). -/
def validQuantity (cfg : ConsolidationConfig) (rowIndex : Nat) (rv : RawValue) :
    ℚ × List ValidationWarning :=
  let qw :=
    match rv with
    | RawValue.missing => (cfg.defaultQuantity, [⟨rowIndex, WarningKind.missingQuantity⟩])
    | RawValue.invalid raw => (cfg.defaultQuantity, [⟨rowIndex, WarningKind.invalidQuantity raw⟩])
    | RawValue.num q => (q, ([] : List ValidationWarning))
  if qw.1 ≤ 0 then (cfg.defaultQuantity, qw.2 ++ [⟨rowIndex, WarningKind.nonpositiveQuantity⟩])
  else qw

/-- Validated unit: defaulted when missing or blank (warning). -/
def validUnit (cfg : ConsolidationConfig) (rowIndex : Nat) (u : Option String) :
    String × List ValidationWarning :=
  match u with
  | none => (cfg.defaultUnit, [(⟨rowIndex, WarningKind.missingUnit⟩ : ValidationWarning)])
  | some s =>
    if isBlank s.data then (cfg.defaultUnit, [⟨rowIndex, WarningKind.missingUnit⟩])
    else (s, [])

/-- Validated location: defaulted when missing or blank (warning). -/
def validLocation (cfg : ConsolidationConfig) (rowIndex : Nat) (u : Option String) :
    String × List ValidationWarning :=
  match u with
  | none => (cfg.defaultLocation, [(⟨rowIndex, WarningKind.missingLocation⟩ : ValidationWarning)])
  | some s =>
    if isBlank s.data then (cfg.defaultLocation, [⟨rowIndex, WarningKind.missingLocation⟩])
    else (s, [])

/-- Validated price: a missing or non-numeric price defaults silently (price
is optional with no validation requirement); a negative price is clamped to
the default with a warning. -/
def validPrice (cfg : ConsolidationConfig) (rowIndex : Nat) (rv : RawValue) :
    ℚ × List ValidationWarning :=
  match rv with
  | RawValue.missing => (cfg.defaultPrice, ([] : List ValidationWarning))
  | RawValue.invalid _ => (cfg.defaultPrice, [])
  | RawValue.num p =>
    if p < 0 then (cfg.defaultPrice, [⟨rowIndex, WarningKind.negativePrice⟩]) else (p, [])

/-- Validate one raw row (spec section 4.5): the row is dropped iff the
ingredient name is blank after trimming; otherwise every other field is
defaulted per configuration and the row is kept. -/
def validate (cfg : ConsolidationConfig) (rowIndex : Nat) (row : RawRow) :
    Option ValidatedLine × List ValidationWarning :=
  let rawName := row.ingredientName.getD ""
  if isBlank rawName.data then (none, [])
  else
    let qw := validQuantity cfg rowIndex row.quantity
    let uw := validUnit cfg rowIndex row.unit
    let lw := validLocation cfg rowIndex row.location
    let pw := validPrice cfg rowIndex row.price
    (some ⟨row.dishName, rawName, qw.1, uw.1, lw.1, pw.1, rowIndex⟩,
      qw.2 ++ uw.2 ++ lw.2 ++ pw.2)

/-- Validate all rows with 1-based indices, returning kept lines, warnings
and the skipped-row count. -/
def validateGo (cfg : ConsolidationConfig) (idx : Nat) :
    List RawRow → List ValidatedLine × List ValidationWarning × Nat
  | [] => ([], [], 0)
  | r :: rs =>
    match (validate cfg idx r).1, (validate cfg idx r).2, validateGo cfg (idx + 1) rs with
    | none, ws, (vs, wss, sk) => (vs, ws ++ wss, sk + 1)
    | some l, ws, (vs, wss, sk) => (l :: vs, ws ++ wss, sk)

/-- Validate a whole input, starting row numbering at 1. -/
def validateAll (cfg : ConsolidationConfig) (rows : List RawRow) :
    List ValidatedLine × List ValidationWarning × Nat :=
  validateGo cfg 1 rows

/-! ## Unit table lookup and quantity normalizer

Modelled from the spec: sections 4.1 and 4.2 of the absent
`make_shopping_list.py`. -/

/-- Resolve a unit text against the table, case-insensitively, checking the
canonical name and all aliases (spec section 4.1). -/
def resolveUnit (tbl : UnitTable) (u : String) : Option UnitDefinition :=
  tbl.units.find? (fun d => eqCI d.name u || d.aliases.any (fun al => eqCI al u))

/-- Resolve a density override for a canonical ingredient name and a resolved
unit: only volume-dimensioned units qualify, the override's pattern must
occur inside the ingredient name (case-insensitively), and the override's
`fromUnit` must be the resolved unit (spec section 4.1). -/
def resolveDensity (tbl : UnitTable) (canonName : String) (ud : UnitDefinition) :
    Option DensityOverride :=
  if ud.dimension = Dimension.volume then
    tbl.overrides.find? (fun ov =>
      hasSub (lowerList ov.ingredientNamePattern.data) (lowerList canonName.data) &&
        eqCI ov.fromUnit ud.name)
  else none

/-- Human-readable description of an applied density conversion. -/
def convDesc (l : ValidatedLine) (ov : DensityOverride) (baseUnit : String) : String :=
  toString l.quantity ++ " " ++ l.unit ++ " " ++ l.ingredientName ++ " -> " ++
    toString (l.quantity * ov.toBaseWeightFactor) ++ " " ++ baseUnit

/-- Normalize one validated line (spec section 4.2).  When conversion is
disabled the line is passed through untouched (spec section 6); an
unresolvable unit is kept verbatim with dimension Count (step 1); a density
override beats the generic factor for volume units (step 2); otherwise the
quantity is scaled by the unit's factor (step 3). -/
def normalize (tbl : UnitTable) (cfg : ConsolidationConfig) (l : ValidatedLine) :
    NormalizedLine :=
  if cfg.unitConversionEnabled then
    match resolveUnit tbl l.unit with
    | none => ⟨l, l.quantity, l.unit, Dimension.count, none⟩
    | some ud =>
      match resolveDensity tbl (canonicalName l.ingredientName) ud with
      | some ov =>
        ⟨l, l.quantity * ov.toBaseWeightFactor, tbl.baseUnitName Dimension.weight,
          Dimension.weight, some (convDesc l ov (tbl.baseUnitName Dimension.weight))⟩
      | none =>
        ⟨l, l.quantity * ud.factorToBase, tbl.baseUnitName ud.dimension, ud.dimension, none⟩
  else ⟨l, l.quantity, l.unit, Dimension.count, none⟩

/-! ## Ingredient key resolver and consolidator

Modelled from the spec: sections 4.3 and 4.4 of the absent
`make_shopping_list.py`. -/

/-- The group key of a normalized line (spec section 4.3): location,
canonical ingredient name, and the unit key (dimension and base unit when
conversion is enabled, raw unit text when disabled, spec section 6). -/
def groupKey (cfg : ConsolidationConfig) (n : NormalizedLine) : GroupKey :=
  ⟨n.line.location, canonicalName n.line.ingredientName,
    if cfg.unitConversionEnabled then UnitKey.dim n.dimension n.baseUnit
    else UnitKey.raw n.line.unit⟩

/-- Build one consolidated item from the first line of a group and the rest
of its members: quantities are summed from `baseQuantity`, prices are summed
at face value, and the display unit is the first line's base unit (spec
section 4.4). -/
def mkItem (k : GroupKey) (n : NormalizedLine) (members : List NormalizedLine) :
    ConsolidatedItem :=
  ⟨k, n.line.location, canonicalName n.line.ingredientName,
    ((n :: members).map (fun m => m.baseQuantity)).sum, n.baseUnit,
    ((n :: members).map (fun m => m.line.price)).sum, n :: members⟩

/-- The grouping loop: split off the first line's whole group, then recurse
on the remaining lines.  The fuel argument only bounds the recursion depth
(each round strictly shrinks the list); `consolidate` supplies enough. -/
def consolidateGo (cfg : ConsolidationConfig) :
    Nat → List NormalizedLine → List ConsolidatedItem
  | _, [] => []
  | 0, _ :: _ => []
  | fuel + 1, n :: ns =>
    mkItem (groupKey cfg n) n (ns.filter (fun m => groupKey cfg m == groupKey cfg n)) ::
      consolidateGo cfg fuel (ns.filter (fun m => !(groupKey cfg m == groupKey cfg n)))

/-- Group normalized lines by key in first-seen order and aggregate each
group (spec section 4.4). -/
def consolidate (cfg : ConsolidationConfig) (ns : List NormalizedLine) :
    List ConsolidatedItem :=
  consolidateGo cfg ns.length ns

/-- First-occurrence loop with a fuel bound on the recursion depth. -/
def firstSeenGo {α : Type} [DecidableEq α] : Nat → List α → List α
  | _, [] => []
  | 0, _ :: _ => []
  | fuel + 1, x :: xs => x :: firstSeenGo fuel (xs.filter (fun y => !(y == x)))

/-- First occurrence of each element, in first-seen order. -/
def firstSeen {α : Type} [DecidableEq α] (xs : List α) : List α :=
  firstSeenGo xs.length xs

/-- The full pipeline (spec section 6, `normalizeAndConsolidate`): validate
every row, normalize each kept line, consolidate, and collect the applied
conversion descriptions deduplicated by content in first-seen order. -/
def normalizeAndConsolidate (tbl : UnitTable) (rows : List RawRow)
    (cfg : ConsolidationConfig) : ConsolidationResult :=
  let v := validateAll cfg rows
  let ns := v.1.map (normalize tbl cfg)
  ⟨consolidate cfg ns, rows.length, v.2.2, v.2.1,
    firstSeen (ns.filterMap (fun n => n.conversionApplied))⟩

/-- The member lines of a group: the normalized lines of the run whose
group key equals the given key. -/
def memberLines (tbl : UnitTable) (cfg : ConsolidationConfig) (rows : List RawRow)
    (k : GroupKey) : List NormalizedLine :=
  ((validateAll cfg rows).1.map (normalize tbl cfg)).filter (fun m => groupKey cfg m == k)

/-- Re-feed one consolidated item as an input row: same location, ingredient
name and unit, with the item's totals as quantity and price (spec section 8,
idempotence of re-consolidation). -/
def itemToRow (it : ConsolidatedItem) : RawRow :=
  ⟨none, some it.ingredientName, RawValue.num it.totalQuantity, some it.unit,
    some it.location, RawValue.num it.totalPrice, none, none⟩

/-- Well-formedness of a unit table (spec section 3 invariants): factors are
positive; each dimension's base unit resolves to a definition of that
dimension with factor one whose canonical name matches no density override's
`fromUnit`; base unit names are not blank. -/
def TableWF (tbl : UnitTable) : Prop :=
  (∀ d ∈ tbl.units, 0 < d.factorToBase) ∧
  (∀ ov ∈ tbl.overrides, 0 < ov.toBaseWeightFactor) ∧
  (∀ dim : Dimension, ∃ du,
    resolveUnit tbl (tbl.baseUnitName dim) = some du ∧
    du.dimension = dim ∧ du.factorToBase = 1 ∧
    (∀ ov ∈ tbl.overrides, eqCI ov.fromUnit du.name = false)) ∧
  (∀ dim : Dimension, isBlank (tbl.baseUnitName dim).data = false)

/-- A small concrete unit table used by the scenario theorems: fluid ounces,
cups, ounces, pounds and counts, plus the cup-of-sugar density override of
spec section 8 scenario 2. -/
def sampleTable : UnitTable :=
  ⟨[⟨"floz", ["fl oz", "fluid ounce"], Dimension.volume, 1⟩,
    ⟨"cup", ["cups"], Dimension.volume, 8⟩,
    ⟨"oz", ["ounce", "ounces"], Dimension.weight, 1⟩,
    ⟨"lb", ["lbs", "pound", "pounds"], Dimension.weight, 16⟩,
    ⟨"each", [], Dimension.count, 1⟩],
  [⟨"sugar", "cup", mkRat 141 20⟩],
  fun dim =>
    match dim with
    | Dimension.volume => "floz"
    | Dimension.weight => "oz"
    | Dimension.count => "each"⟩

/-- A default configuration mirroring the README's documented defaults. -/
def sampleConfig : ConsolidationConfig :=
  ⟨1, 0, "Unknown", "each", "Unknown Item", true⟩

/-- A well-formed input row used by witnesses. -/
def saltRow : RawRow :=
  ⟨none, some "Salt", RawValue.num 2, some "each", some "A", RawValue.num 3, none, none⟩

/-- The single consolidated item produced from `saltRow`. -/
def saltItem : ConsolidatedItem :=
  ((normalizeAndConsolidate sampleTable [saltRow] sampleConfig).items).headD
    ⟨⟨"", "", UnitKey.raw ""⟩, "", "", 0, "", 0, []⟩

/-- A row with a negative quantity and a negative price, used to witness the
never-negative invariant. -/
def negRow : RawRow :=
  ⟨none, some "Eggs", RawValue.num (-2), some "each", some "A", RawValue.num (-3), none, none⟩

/-- A kept row whose only invalid field is a negative price. -/
def negPriceRow : RawRow :=
  ⟨none, some "Salt", RawValue.num 1, some "each", some "A", RawValue.num (-1), none, none⟩

/-- Spec section 8 scenario 2: one cup of sugar. -/
def sugarCupRow : RawRow :=
  ⟨none, some "Sugar", RawValue.num 1, some "cup", some "Store A", RawValue.missing, none, none⟩

/-- Spec section 8 scenario 2: eight ounces of sugar. -/
def sugarOzRow : RawRow :=
  ⟨none, some "Sugar", RawValue.num 8, some "oz", some "Store A", RawValue.missing, none, none⟩

/-- Spec section 8 scenario 2 input. -/
def sugarRows : List RawRow := [sugarCupRow, sugarOzRow]

/-- The sample configuration with unit conversion disabled (spec section 8
scenario 6). -/
def sampleConfigNoConv : ConsolidationConfig :=
  ⟨1, 0, "Unknown", "each", "Unknown Item", false⟩

/-- Spec section 8 scenario 4: a row with an invalid quantity and blank unit
and location. -/
def scenario4Row : RawRow :=
  ⟨none, some "Salt", RawValue.invalid "invalid_qty", some "", some "", RawValue.missing,
    none, none⟩

/-- The validated line a re-fed consolidated item turns into. -/
def refeedLine (idx : Nat) (it : ConsolidatedItem) : ValidatedLine :=
  ⟨none, it.ingredientName, it.totalQuantity, it.unit, it.location, it.totalPrice, idx⟩

/-- The validated lines of a whole re-fed item list, with consecutive row
indices. -/
def refeedLines : Nat → List ConsolidatedItem → List ValidatedLine
  | _, [] => []
  | idx, it :: items => refeedLine idx it :: refeedLines (idx + 1) items

/-- The observable fields of a consolidated item compared across
re-consolidation: location, canonical name, totals and display unit. -/
def itemView (it : ConsolidatedItem) : String × String × ℚ × ℚ × String :=
  (it.location, it.ingredientName, it.totalQuantity, it.totalPrice, it.unit)

/-- An item is linked to a validated line of its run: its name is the line's
canonical name, its display unit the line's base unit, its location the
line's location. -/
def ItemLink (tbl : UnitTable) (cfg : ConsolidationConfig) (it : ConsolidatedItem) : Prop :=
  ∃ l : ValidatedLine,
    it.ingredientName = canonicalName l.ingredientName ∧
    it.unit = (normalize tbl cfg l).baseUnit ∧
    it.location = l.location ∧
    isBlank l.ingredientName.data = false ∧
    isBlank l.unit.data = false ∧
    isBlank l.location.data = false

/-! ## The React shopping list (src/unnamed/part_003)

The `ShoppingList` component's `consolidateIngredients` and the pure state
update inside `togglePurchased`, embedded from the source. -/

/-- An ingredient record as returned by the API
(src/frontend, `IngredientResponse`). -/
structure IngredientResponse where
  id : Nat
  name : String
  unit : String
  is_purchased : Bool
  store_id : Option Nat
deriving DecidableEq, Repr

/-- One ingredient instance attached to a dish. -/
structure IngredientInstance where
  id : Nat
  ingredient : IngredientResponse
  quantity : ℚ
  notes : Option String
deriving DecidableEq, Repr

/-- A dish with its ingredient instances. -/
structure DishResponse where
  id : Nat
  name : String
  ingredient_instances : List IngredientInstance
deriving DecidableEq, Repr

/-- A provenance entry pushed into `instances`
(src/unnamed/part_003 lines 112-118). -/
structure InstanceEntry where
  dishId : Nat
  dishName : String
  quantity : ℚ
  notes : Option String
  instanceId : Nat
deriving DecidableEq, Repr

/-- Consolidated ingredient with all instances across dishes
(src/unnamed/part_003 lines 57-68, `ConsolidatedIngredient`). -/
structure ConsolidatedIngredient where
  ingredient : IngredientResponse
  totalQuantity : ℚ
  instances : List InstanceEntry
deriving DecidableEq, Repr

/-- One step of the `ingredientMap` construction of `consolidateIngredients`
(src/unnamed/part_003 lines 100-120): a JavaScript `Map` keeps insertion
order, modelled as an association list where an existing entry is updated in
place and a new entry is appended. -/
def consolidateStep (d : DishResponse) (acc : List ConsolidatedIngredient)
    (inst : IngredientInstance) : List ConsolidatedIngredient :=
  let entry : InstanceEntry := ⟨d.id, d.name, inst.quantity, inst.notes, inst.id⟩
  if acc.any (fun c => c.ingredient.id == inst.ingredient.id) then
    acc.map (fun c =>
      if c.ingredient.id == inst.ingredient.id then
        { c with totalQuantity := c.totalQuantity + inst.quantity,
                 instances := c.instances ++ [entry] }
      else c)
  else acc ++ [⟨inst.ingredient, inst.quantity, [entry]⟩]

/-- `consolidateIngredients` (src/unnamed/part_003 lines 97-127): group
every dish's ingredient instances by ingredient id, then sort by ingredient
name (`localeCompare`, a stable sort in JavaScript). -/
def consolidateIngredients (dishList : List DishResponse) : List ConsolidatedIngredient :=
  let m := dishList.foldl
    (fun acc d => d.ingredient_instances.foldl (consolidateStep d) acc) []
  m.mergeSort (fun a b => a.ingredient.name ≤ b.ingredient.name)

/-- The local state update of `togglePurchased`
(src/unnamed/part_003 lines 154-170): find the item whose ingredient has the
given id; when present, flip that flag on every item with the id (the
negation of the found item's flag), leaving all other fields and items
untouched.  The API call is upstream of this pure update. -/
def togglePurchasedUpdate (consolidated : List ConsolidatedIngredient)
    (ingredientId : Nat) : List ConsolidatedIngredient :=
  match consolidated.find? (fun c => c.ingredient.id == ingredientId) with
  | none => consolidated
  | some item =>
    let newPurchased := !item.ingredient.is_purchased
    consolidated.map (fun c =>
      if c.ingredient.id == ingredientId then
        { c with ingredient := { c.ingredient with is_purchased := newPurchased } }
      else c)

/-! ## The cinematic intro text parser (src/unnamed/part_001)

`parseTextWithHighlights` splits a string into plain-text segments and
highlighted names written as (double-brace) markers, using the regular
expression matching one or more non-closing-brace characters between double
braces. -/

/-- A parsed segment type (src/unnamed/part_001 lines 84-87). -/
inductive SegType
  | text
  | highlight
deriving DecidableEq, Repr

/-- A parsed segment (src/unnamed/part_001, `TextSegment`). -/
structure TextSegment where
  type : SegType
  content : List Char
deriving DecidableEq, Repr

/-- Greedily take the maximal run of characters satisfying `p`, returning
the run and the remainder. -/
def takeRun (p : Char → Bool) : List Char → (List Char × List Char)
  | [] => ([], [])
  | c :: cs =>
    if p c then ((takeRun p cs).1.cons c, (takeRun p cs).2) else ([], c :: cs)

theorem takeRun_append (p : Char → Bool) (cs : List Char) :
    (takeRun p cs).1 ++ (takeRun p cs).2 = cs := by
  induction cs with
  | nil => rfl
  | cons c cs ih =>
    by_cases h : p c
    · simp [takeRun, h, ih]
    · simp [takeRun, h]

/-- Try to match the highlight marker regular expression at the head of the
input: two opening braces, a non-empty maximal run of non-closing-brace
characters, then two closing braces.  Returns the captured name and the
remaining input. -/
def tryMatch (cs : List Char) : Option (List Char × List Char) :=
  match cs with
  | '{' :: '{' :: rest =>
    let run := (takeRun (fun c => !(c == '}')) rest).1
    let rest2 := (takeRun (fun c => !(c == '}')) rest).2
    if run.isEmpty then none
    else
      match rest2 with
      | '}' :: '}' :: rest3 => some (run, rest3)
      | _ => none
  | _ => none

theorem tryMatch_lt {cs run rest : List Char} (h : tryMatch cs = some (run, rest)) :
    rest.length < cs.length := by
  unfold tryMatch at h
  split at h
  next tl =>
    have hsp := takeRun_append (fun c => !(c == '}')) tl
    simp only at h
    split at h
    · simp at h
    · split at h
      next rest3 heq =>
        simp only [Option.some.injEq, Prod.mk.injEq] at h
        rw [heq] at hsp
        have hlen := congrArg List.length hsp
        simp only [List.length_append, List.length_cons] at hlen
        have h2 : rest3 = rest := h.2
        subst h2
        simp only [List.length_cons]
        omega
      next => simp at h
  next => simp at h

/-- The pending plain text accumulated since the last marker, flushed as one
text segment when non-empty (the code only pushes a text segment when the
gap before a match, or the tail after the last match, is non-empty). -/
def flushPend (pend : List Char) : List TextSegment :=
  if pend = [] then [] else [⟨SegType.text, pend⟩]

/-- The scanning loop of `parseTextWithHighlights`
(src/unnamed/part_001 lines 89-108): at each position, emit a highlight
segment when the marker regular expression matches, otherwise accumulate one
character of plain text. -/
def parseSegs (cs : List Char) (pend : List Char) : List TextSegment :=
  match h : tryMatch cs with
  | some (run, rest) => flushPend pend ++ ⟨SegType.highlight, run⟩ :: parseSegs rest []
  | none =>
    match cs with
    | [] => flushPend pend
    | c :: rest => parseSegs rest (pend ++ [c])
termination_by cs.length
decreasing_by
  · exact tryMatch_lt h
  · simp

/-- `parseTextWithHighlights` (src/unnamed/part_001 lines 89-108). -/
def parseTextWithHighlights (s : String) : List TextSegment :=
  parseSegs s.data []

/-- The input with every marker occurrence replaced by its captured name
(the claimed round-trip image of the parser). -/
def replaceMarkers (cs : List Char) : List Char :=
  match h : tryMatch cs with
  | some (run, rest) => run ++ replaceMarkers rest
  | none =>
    match cs with
    | [] => []
    | c :: rest => c :: replaceMarkers rest
termination_by cs.length
decreasing_by
  · exact tryMatch_lt h
  · simp

/-- The bracketed names of the input, in order of occurrence. -/
def markersOf (cs : List Char) : List (List Char) :=
  match h : tryMatch cs with
  | some (run, rest) => run :: markersOf rest
  | none =>
    match cs with
    | [] => []
    | _c :: rest => markersOf rest
termination_by cs.length
decreasing_by
  · exact tryMatch_lt h
  · simp

/-- Concatenation of the content of a segment list. -/
def segContents (segs : List TextSegment) : List Char :=
  segs.foldr (fun s acc => s.content ++ acc) []

/-- The highlighted contents of a segment list, in order. -/
def segHighlights (segs : List TextSegment) : List (List Char) :=
  segs.filterMap (fun s => if s.type = SegType.highlight then some s.content else none)

/-! ## Theorems: the intro text parser -/

theorem segContents_cons (s : TextSegment) (l : List TextSegment) :
    segContents (s :: l) = s.content ++ segContents l := rfl

theorem segContents_append (a b : List TextSegment) :
    segContents (a ++ b) = segContents a ++ segContents b := by
  induction a with
  | nil => rfl
  | cons s a ih =>
    simp [segContents, List.foldr_cons] at ih ⊢
    rw [ih]

theorem segHighlights_cons (s : TextSegment) (l : List TextSegment) :
    segHighlights (s :: l) =
      (if s.type = SegType.highlight then [s.content] else []) ++ segHighlights l := by
  by_cases h : s.type = SegType.highlight <;> simp [segHighlights, List.filterMap_cons, h]

theorem segHighlights_append (a b : List TextSegment) :
    segHighlights (a ++ b) = segHighlights a ++ segHighlights b := by
  simp [segHighlights, List.filterMap_append]

theorem segContents_flushPend (pend : List Char) :
    segContents (flushPend pend) = pend := by
  by_cases h : pend = [] <;> simp [flushPend, h, segContents]

theorem segHighlights_flushPend (pend : List Char) :
    segHighlights (flushPend pend) = [] := by
  by_cases h : pend = [] <;> simp [flushPend, h, segHighlights]

theorem contents_parseSegs : ∀ n cs pend, cs.length ≤ n →
    segContents (parseSegs cs pend) = pend ++ replaceMarkers cs := by
  intro n
  induction n with
  | zero =>
    intro cs pend h
    have hcs : cs = [] := List.eq_nil_of_length_eq_zero (Nat.le_zero.mp h)
    subst hcs
    unfold parseSegs replaceMarkers tryMatch
    simp [segContents_flushPend]
  | succ n ih =>
    intro cs pend h
    unfold parseSegs replaceMarkers
    split
    next run rest hm =>
      have hlt := tryMatch_lt hm
      rw [segContents_append, segContents_cons, ih rest [] (by omega)]
      simp [segContents_flushPend]
    next hm =>
      match cs with
      | [] => simp [segContents_flushPend]
      | c :: rest =>
        rw [ih rest (pend ++ [c]) (by simp at h ⊢; omega)]
        simp

theorem highlights_parseSegs : ∀ n cs pend, cs.length ≤ n →
    segHighlights (parseSegs cs pend) = markersOf cs := by
  intro n
  induction n with
  | zero =>
    intro cs pend h
    have hcs : cs = [] := List.eq_nil_of_length_eq_zero (Nat.le_zero.mp h)
    subst hcs
    unfold parseSegs markersOf tryMatch
    simp [segHighlights_flushPend]
  | succ n ih =>
    intro cs pend h
    unfold parseSegs markersOf
    split
    next run rest hm =>
      have hlt := tryMatch_lt hm
      rw [segHighlights_append, segHighlights_cons, ih rest [] (by omega)]
      simp [segHighlights_flushPend]
    next hm =>
      match cs with
      | [] => simp [segHighlights_flushPend]
      | c :: rest =>
        rw [ih rest (pend ++ [c]) (by simp at h ⊢; omega)]

/-- C9: marker-stripping round trip of the intro text parser: for every
input string, concatenating the content of the segments returned by
`parseTextWithHighlights` yields the input with every double-brace marker
replaced by its captured name, and the segments tagged highlight are exactly
the bracketed names in order of occurrence. -/
theorem c9_parse_round_trip (s : String) :
    segContents (parseTextWithHighlights s) = replaceMarkers s.data ∧
    segHighlights (parseTextWithHighlights s) = markersOf s.data := by
  constructor
  · exact contents_parseSegs s.data.length s.data [] (Nat.le_refl _)
  · exact highlights_parseSegs s.data.length s.data [] (Nat.le_refl _)

/-! ## Theorems: the shopping-list purchased toggle -/

/-- C10: frame property of `togglePurchased`: when ingredient ids are
pairwise distinct (as `consolidateIngredients` guarantees, grouping by id)
and the toggled id is present, the update preserves the length and, at every
position, the total quantity, the instances list and every ingredient field
except `is_purchased`; the item carrying the id gets the negation of its own
flag, and every other item is untouched. -/
theorem c10_toggle_frame (s : List ConsolidatedIngredient) (iid : Nat)
    (hnodup : (s.map (fun c => c.ingredient.id)).Nodup)
    (hmem : iid ∈ s.map (fun c => c.ingredient.id)) :
    ∃ hlen : (togglePurchasedUpdate s iid).length = s.length,
      ∀ i (hi : i < s.length),
        ((togglePurchasedUpdate s iid).get ⟨i, hlen ▸ hi⟩).totalQuantity =
            (s.get ⟨i, hi⟩).totalQuantity ∧
        ((togglePurchasedUpdate s iid).get ⟨i, hlen ▸ hi⟩).instances =
            (s.get ⟨i, hi⟩).instances ∧
        ((togglePurchasedUpdate s iid).get ⟨i, hlen ▸ hi⟩).ingredient.id =
            (s.get ⟨i, hi⟩).ingredient.id ∧
        ((togglePurchasedUpdate s iid).get ⟨i, hlen ▸ hi⟩).ingredient.name =
            (s.get ⟨i, hi⟩).ingredient.name ∧
        ((togglePurchasedUpdate s iid).get ⟨i, hlen ▸ hi⟩).ingredient.unit =
            (s.get ⟨i, hi⟩).ingredient.unit ∧
        ((togglePurchasedUpdate s iid).get ⟨i, hlen ▸ hi⟩).ingredient.store_id =
            (s.get ⟨i, hi⟩).ingredient.store_id ∧
        ((s.get ⟨i, hi⟩).ingredient.id = iid →
          ((togglePurchasedUpdate s iid).get ⟨i, hlen ▸ hi⟩).ingredient.is_purchased =
            !(s.get ⟨i, hi⟩).ingredient.is_purchased) ∧
        ((s.get ⟨i, hi⟩).ingredient.id ≠ iid →
          (togglePurchasedUpdate s iid).get ⟨i, hlen ▸ hi⟩ = s.get ⟨i, hi⟩) := by
  obtain ⟨c0, hc0mem, hc0id⟩ := List.exists_of_mem_map hmem
  cases hf : s.find? (fun c => c.ingredient.id == iid) with
  | none =>
    exfalso
    have := List.find?_eq_none.mp hf c0 hc0mem
    simp [hc0id] at this
  | some item =>
    have hitem_mem : item ∈ s := List.mem_of_find?_eq_some hf
    have hitem_id : item.ingredient.id = iid := by
      have := List.find?_some hf
      simpa using this
    have hupd : togglePurchasedUpdate s iid =
        s.map (fun c =>
          if c.ingredient.id == iid then
            { c with ingredient :=
                { c.ingredient with is_purchased := !item.ingredient.is_purchased } }
          else c) := by
      unfold togglePurchasedUpdate
      rw [hf]
    have hlen : (togglePurchasedUpdate s iid).length = s.length := by
      rw [hupd, List.length_map]
    refine ⟨hlen, ?_⟩
    intro i hi
    have hget : (togglePurchasedUpdate s iid).get ⟨i, hlen ▸ hi⟩ =
        (fun c =>
          if c.ingredient.id == iid then
            { c with ingredient :=
                { c.ingredient with is_purchased := !item.ingredient.is_purchased } }
          else c) (s.get ⟨i, hi⟩) := by
      simp only [hupd, List.get_eq_getElem, List.getElem_map]
    rw [hget]
    by_cases hid : (s.get ⟨i, hi⟩).ingredient.id = iid
    · have hceq : s.get ⟨i, hi⟩ = item :=
        List.inj_on_of_nodup_map hnodup (List.get_mem s i hi) hitem_mem
          (by simp only [hid, hitem_id])
      have hid2 : s[i].ingredient.id = iid := hid
      have hceq2 : s[i] = item := hceq
      simp [List.get_eq_getElem, hid2, hceq2, hitem_id]
    · have hid2 : ¬(s[i].ingredient.id = iid) := hid
      simp [List.get_eq_getElem, hid2]

/-! ## Theorems: consolidator structure -/

theorem consolidateGo_irrel (cfg : ConsolidationConfig) :
    ∀ (fuel fuel2 : Nat) (ns : List NormalizedLine), ns.length ≤ fuel → ns.length ≤ fuel2 →
      consolidateGo cfg fuel ns = consolidateGo cfg fuel2 ns := by
  intro fuel
  induction fuel with
  | zero =>
    intro fuel2 ns h h2
    match ns, fuel2 with
    | [], 0 => rfl
    | [], f + 1 => rfl
    | n :: ns, _ => simp at h
  | succ fuel ih =>
    intro fuel2 ns h h2
    match ns, fuel2 with
    | [], 0 => rfl
    | [], f + 1 => rfl
    | n :: ns, 0 => simp at h2
    | n :: ns, f + 1 =>
      simp only [consolidateGo, List.cons.injEq, true_and]
      simp only [List.length_cons] at h h2
      exact ih f _ (Nat.le_trans (List.length_filter_le _ _) (by omega))
        (Nat.le_trans (List.length_filter_le _ _) (by omega))

theorem consolidate_cons (cfg : ConsolidationConfig) (n : NormalizedLine)
    (ns : List NormalizedLine) :
    consolidate cfg (n :: ns) =
      mkItem (groupKey cfg n) n (ns.filter (fun m => groupKey cfg m == groupKey cfg n)) ::
        consolidate cfg (ns.filter (fun m => !(groupKey cfg m == groupKey cfg n))) := by
  unfold consolidate
  simp only [List.length_cons, consolidateGo, List.cons.injEq, true_and]
  exact consolidateGo_irrel cfg _ _ _ (List.length_filter_le _ _) (Nat.le_refl _)

theorem firstSeenGo_irrel {α : Type} [DecidableEq α] :
    ∀ (fuel fuel2 : Nat) (xs : List α), xs.length ≤ fuel → xs.length ≤ fuel2 →
      firstSeenGo fuel xs = firstSeenGo fuel2 xs := by
  intro fuel
  induction fuel with
  | zero =>
    intro fuel2 xs h h2
    match xs, fuel2 with
    | [], 0 => rfl
    | [], f + 1 => rfl
    | x :: xs, _ => simp at h
  | succ fuel ih =>
    intro fuel2 xs h h2
    match xs, fuel2 with
    | [], 0 => rfl
    | [], f + 1 => rfl
    | x :: xs, 0 => simp at h2
    | x :: xs, f + 1 =>
      simp only [firstSeenGo, List.cons.injEq, true_and]
      simp only [List.length_cons] at h h2
      exact ih f _ (Nat.le_trans (List.length_filter_le _ _) (by omega))
        (Nat.le_trans (List.length_filter_le _ _) (by omega))

theorem firstSeen_cons {α : Type} [DecidableEq α] (x : α) (xs : List α) :
    firstSeen (x :: xs) = x :: firstSeen (xs.filter (fun y => !(y == x))) := by
  unfold firstSeen
  simp only [List.length_cons, firstSeenGo, List.cons.injEq, true_and]
  exact firstSeenGo_irrel _ _ _ (List.length_filter_le _ _) (Nat.le_refl _)

theorem consolidate_nil (cfg : ConsolidationConfig) : consolidate cfg [] = [] := rfl

theorem firstSeen_nil {α : Type} [DecidableEq α] : firstSeen ([] : List α) = [] := rfl

theorem map_filter_comm {α β : Type} (f : α → β) (p : β → Bool) (l : List α) :
    (l.filter (fun a => p (f a))).map f = (l.map f).filter p := by
  induction l with
  | nil => rfl
  | cons a l ih =>
    by_cases h : p (f a) <;> simp [List.filter_cons, h, ih]

theorem filter_filter_ne {α β : Type} [DecidableEq β] (f : α → β) {k K : β} (h : K ≠ k)
    (l : List α) :
    (l.filter (fun m => !(f m == k))).filter (fun m => f m == K) =
      l.filter (fun m => f m == K) := by
  induction l with
  | nil => rfl
  | cons a l ih =>
    by_cases ha : f a = k
    · have h1 : (f a == k) = true := by simp [ha]
      have h2 : (f a == K) = false := by simp [ha, Ne.symm h]
      simp [List.filter_cons, h1, h2, ih]
    · have h1 : (f a == k) = false := by simp [ha]
      by_cases hK : f a = K
      · have h2 : (f a == K) = true := by simp [hK]
        simp [List.filter_cons, h1, h2, ih]
      · have h2 : (f a == K) = false := by simp [hK]
        simp [List.filter_cons, h1, h2, ih]

theorem mem_firstSeen {α : Type} [DecidableEq α] :
    ∀ len (xs : List α), xs.length ≤ len → ∀ y, y ∈ firstSeen xs ↔ y ∈ xs := by
  intro len
  induction len with
  | zero =>
    intro xs h y
    have hx : xs = [] := List.eq_nil_of_length_eq_zero (Nat.le_zero.mp h)
    subst hx
    rw [firstSeen_nil]
  | succ len ih =>
    intro xs h y
    match xs with
    | [] => rw [firstSeen_nil]
    | x :: xs =>
      rw [firstSeen_cons]
      simp only [List.length_cons] at h
      rw [List.mem_cons, ih (xs.filter (fun y => !(y == x)))
        (Nat.le_trans (List.length_filter_le _ _) (by omega)) y]
      simp only [List.mem_filter, List.mem_cons, Bool.not_eq_eq_eq_not, Bool.not_true,
        beq_eq_false_iff_ne, ne_eq]
      constructor
      · rintro (rfl | ⟨hy, _⟩)
        · exact Or.inl rfl
        · exact Or.inr hy
      · rintro (rfl | hy)
        · exact Or.inl rfl
        · by_cases hyx : y = x
          · exact Or.inl hyx
          · exact Or.inr ⟨hy, hyx⟩

theorem firstSeen_nodup {α : Type} [DecidableEq α] :
    ∀ len (xs : List α), xs.length ≤ len → (firstSeen xs).Nodup := by
  intro len
  induction len with
  | zero =>
    intro xs h
    have hx : xs = [] := List.eq_nil_of_length_eq_zero (Nat.le_zero.mp h)
    subst hx
    rw [firstSeen_nil]
    exact List.nodup_nil
  | succ len ih =>
    intro xs h
    match xs with
    | [] =>
      rw [firstSeen_nil]
      exact List.nodup_nil
    | x :: xs =>
      rw [firstSeen_cons]
      simp only [List.length_cons] at h
      have hlen : (xs.filter (fun y => !(y == x))).length ≤ len :=
        Nat.le_trans (List.length_filter_le _ _) (by omega)
      refine List.nodup_cons.mpr ⟨?_, ih _ hlen⟩
      intro hmem
      rw [mem_firstSeen (xs.filter (fun y => !(y == x))).length _ (Nat.le_refl _) x] at hmem
      simp at hmem

theorem consolidate_keys (cfg : ConsolidationConfig) :
    ∀ len (ns : List NormalizedLine), ns.length ≤ len →
      (consolidate cfg ns).map (fun it => it.key) = firstSeen (ns.map (groupKey cfg)) := by
  intro len
  induction len with
  | zero =>
    intro ns h
    have hx : ns = [] := List.eq_nil_of_length_eq_zero (Nat.le_zero.mp h)
    subst hx
    rw [consolidate_nil]
    simp only [List.map_nil]
    rw [firstSeen_nil]
  | succ len ih =>
    intro ns h
    match ns with
    | [] =>
      rw [consolidate_nil]
      simp only [List.map_nil]
      rw [firstSeen_nil]
    | n :: ns =>
      rw [consolidate_cons]
      simp only [List.length_cons] at h
      have hlen : (ns.filter (fun m => !(groupKey cfg m == groupKey cfg n))).length ≤ len :=
        Nat.le_trans (List.length_filter_le _ _) (by omega)
      simp only [List.map_cons, firstSeen_cons]
      rw [ih _ hlen]
      congr 1
      rw [map_filter_comm (groupKey cfg) (fun y => !(y == groupKey cfg n)) ns]

theorem consolidate_char (cfg : ConsolidationConfig) :
    ∀ len (ns : List NormalizedLine), ns.length ≤ len →
      ∀ it ∈ consolidate cfg ns,
        it.sourceLines = ns.filter (fun m => groupKey cfg m == it.key) ∧
        ∃ n members, it.sourceLines = n :: members ∧ it = mkItem (groupKey cfg n) n members := by
  intro len
  induction len with
  | zero =>
    intro ns h it hit
    have hx : ns = [] := List.eq_nil_of_length_eq_zero (Nat.le_zero.mp h)
    subst hx
    rw [consolidate_nil] at hit
    simp at hit
  | succ len ih =>
    intro ns h it hit
    match ns with
    | [] =>
      rw [consolidate_nil] at hit
      simp at hit
    | n :: ns =>
      rw [consolidate_cons] at hit
      simp only [List.length_cons] at h
      have hlen : (ns.filter (fun m => !(groupKey cfg m == groupKey cfg n))).length ≤ len :=
        Nat.le_trans (List.length_filter_le _ _) (by omega)
      rcases List.mem_cons.mp hit with rfl | htail
      · constructor
        · show (mkItem (groupKey cfg n) n _).sourceLines = _
          simp only [mkItem]
          rw [List.filter_cons]
          simp
        · exact ⟨n, _, rfl, rfl⟩
      · obtain ⟨hsrc, n', members, hsl, hmk⟩ := ih _ hlen it htail
        have hkey : it.key = groupKey cfg n' := by
          rw [hmk]
          rfl
        have hn'src : n' ∈ it.sourceLines := by
          rw [hsl]
          exact List.mem_cons_self _ _
        have hknen : it.key ≠ groupKey cfg n := by
          rw [hsrc] at hn'src
          have h2 := (List.mem_filter.mp (List.mem_filter.mp hn'src).1).2
          have h3 := (List.mem_filter.mp hn'src).2
          simp only [Bool.not_eq_eq_eq_not, Bool.not_true, beq_eq_false_iff_ne, ne_eq] at h2
          simp only [beq_iff_eq] at h3
          rw [← h3]
          exact h2
        have hhead : (groupKey cfg n == it.key) = false := by
          simp [Ne.symm hknen]
        constructor
        · rw [hsrc, filter_filter_ne (groupKey cfg) hknen ns, List.filter_cons, hhead]
          simp
        · exact ⟨n', members, hsl, hmk⟩

/-! ## Theorems: sum invariant, merge criterion, output order -/

theorem headD_mem {α : Type} (l : List α) (d : α) (h : l ≠ []) : l.headD d ∈ l := by
  cases l with
  | nil => exact absurd rfl h
  | cons a l => simp [List.headD]

/-- C1: sum invariant of consolidation: every output group's `totalQuantity`
is the arithmetic sum of the `baseQuantity` of its member lines, and its
`totalPrice` is the sum of the member lines' validated prices taken at face
value (the price field of the line, never unit-adjusted). -/
theorem c1_sum_invariant (tbl : UnitTable) (rows : List RawRow) (cfg : ConsolidationConfig) :
    ∀ it ∈ (normalizeAndConsolidate tbl rows cfg).items,
      it.totalQuantity =
        ((memberLines tbl cfg rows it.key).map (fun m => m.baseQuantity)).sum ∧
      it.totalPrice =
        ((memberLines tbl cfg rows it.key).map (fun m => m.line.price)).sum := by
  intro it hit
  have hit' : it ∈ consolidate cfg ((validateAll cfg rows).1.map (normalize tbl cfg)) := hit
  obtain ⟨hsrc, n, members, hsl, hmk⟩ :=
    consolidate_char cfg ((validateAll cfg rows).1.map (normalize tbl cfg)).length _
      (Nat.le_refl _) it hit'
  have hfilter : memberLines tbl cfg rows it.key = n :: members := by
    unfold memberLines
    rw [← hsrc, hsl]
  rw [hfilter]
  constructor
  · rw [hmk]
    rfl
  · rw [hmk]
    rfl

/-- C2: merge criterion: two lines of a run are combined into the same
consolidated item iff their group keys are equal; in particular, when unit
conversion is enabled, two lines with the same canonical ingredient name
whose dimensions or base units differ (as for units in different or unmapped
dimensions) are never merged into one item. -/
theorem c2_merge_iff (cfg : ConsolidationConfig) (ns : List NormalizedLine)
    (n₁ n₂ : NormalizedLine) (h₁ : n₁ ∈ ns) (h₂ : n₂ ∈ ns) :
    ((∃ it ∈ consolidate cfg ns, n₁ ∈ it.sourceLines ∧ n₂ ∈ it.sourceLines) ↔
      groupKey cfg n₁ = groupKey cfg n₂) ∧
    (cfg.unitConversionEnabled = true →
      n₁.dimension ≠ n₂.dimension ∨ n₁.baseUnit ≠ n₂.baseUnit →
      ¬∃ it ∈ consolidate cfg ns, n₁ ∈ it.sourceLines ∧ n₂ ∈ it.sourceLines) := by
  have hmain : (∃ it ∈ consolidate cfg ns, n₁ ∈ it.sourceLines ∧ n₂ ∈ it.sourceLines) ↔
      groupKey cfg n₁ = groupKey cfg n₂ := by
    constructor
    · rintro ⟨it, hit, hm₁, hm₂⟩
      obtain ⟨hsrc, -⟩ := consolidate_char cfg ns.length ns (Nat.le_refl _) it hit
      rw [hsrc] at hm₁ hm₂
      have k₁ := (List.mem_filter.mp hm₁).2
      have k₂ := (List.mem_filter.mp hm₂).2
      simp only [beq_iff_eq] at k₁ k₂
      rw [k₁, k₂]
    · intro hkey
      have hkeys := consolidate_keys cfg ns.length ns (Nat.le_refl _)
      have hmemk : groupKey cfg n₁ ∈ (consolidate cfg ns).map (fun it => it.key) := by
        rw [hkeys, mem_firstSeen (ns.map (groupKey cfg)).length _ (Nat.le_refl _)]
        exact List.mem_map_of_mem _ h₁
      obtain ⟨it, hit, hitkey⟩ := List.exists_of_mem_map hmemk
      refine ⟨it, hit, ?_, ?_⟩
      · obtain ⟨hsrc, -⟩ := consolidate_char cfg ns.length ns (Nat.le_refl _) it hit
        rw [hsrc]
        exact List.mem_filter.mpr ⟨h₁, by simp [hitkey]⟩
      · obtain ⟨hsrc, -⟩ := consolidate_char cfg ns.length ns (Nat.le_refl _) it hit
        rw [hsrc]
        exact List.mem_filter.mpr ⟨h₂, by simp [hitkey, ← hkey]⟩
  refine ⟨hmain, ?_⟩
  intro henabled hdiff hmerge
  have hkey := hmain.mp hmerge
  unfold groupKey at hkey
  rw [henabled] at hkey
  simp only [GroupKey.mk.injEq, if_true] at hkey
  rcases hdiff with hd | hb
  · exact hd (by
      have := hkey.2.2
      simp only [UnitKey.dim.injEq] at this
      exact this.1)
  · exact hb (by
      have := hkey.2.2
      simp only [UnitKey.dim.injEq] at this
      exact this.2)

/-- C7: first-seen output order: the consolidated items appear in the order
in which each group key first occurs in the input (not alphabetically); the
UI-facing shopping list, which explicitly requests a sort, is ordered by
ingredient name. -/
theorem c7_first_seen_order (tbl : UnitTable) (rows : List RawRow)
    (cfg : ConsolidationConfig) (dishes : List DishResponse) :
    ((normalizeAndConsolidate tbl rows cfg).items.map (fun it => it.key) =
      firstSeen (((validateAll cfg rows).1.map (normalize tbl cfg)).map (groupKey cfg))) ∧
    List.Pairwise (fun a b => a.ingredient.name ≤ b.ingredient.name)
      (consolidateIngredients dishes) := by
  constructor
  · exact consolidate_keys cfg ((validateAll cfg rows).1.map (normalize tbl cfg)).length _
      (Nat.le_refl _)
  · unfold consolidateIngredients
    have hsorted := @List.sorted_mergeSort ConsolidatedIngredient
      (fun a b => a.ingredient.name ≤ b.ingredient.name)
      (fun a b c hab hbc => by
        simp only [decide_eq_true_eq] at hab hbc ⊢
        exact le_trans hab hbc)
      (fun a b => by
        simp only [Bool.or_eq_true, decide_eq_true_eq]
        exact le_total a.ingredient.name b.ingredient.name)
      (dishes.foldl (fun acc d => d.ingredient_instances.foldl (consolidateStep d) acc) [])
    exact hsorted.imp (fun h => by simpa using h)

/-! ## Theorems: validator -/

theorem validate_skip_iff (cfg : ConsolidationConfig) (idx : Nat) (row : RawRow) :
    (validate cfg idx row).1 = none ↔ isBlank (row.ingredientName.getD "").data = true := by
  unfold validate
  by_cases h : isBlank (row.ingredientName.getD "").data <;> simp [h]

theorem validate_skip_no_warnings (cfg : ConsolidationConfig) (idx : Nat) (row : RawRow)
    (h : (validate cfg idx row).1 = none) : (validate cfg idx row).2 = [] := by
  rw [validate_skip_iff] at h
  unfold validate
  simp [h]

theorem validQuantity_pos (cfg : ConsolidationConfig) (idx : Nat) (rv : RawValue)
    (hq : 0 < cfg.defaultQuantity) : 0 < (validQuantity cfg idx rv).1 := by
  unfold validQuantity
  cases rv with
  | missing => simp only; split <;> simpa using hq
  | invalid raw => simp only; split <;> simpa using hq
  | num q =>
    simp only
    split
    next => simpa using hq
    next h => simpa using lt_of_not_le (by simpa using h)

theorem validPrice_nonneg (cfg : ConsolidationConfig) (idx : Nat) (rv : RawValue)
    (hp : 0 ≤ cfg.defaultPrice) : 0 ≤ (validPrice cfg idx rv).1 := by
  unfold validPrice
  cases rv with
  | missing => simpa using hp
  | invalid raw => simpa using hp
  | num p =>
    simp only
    split
    next => simpa using hp
    next h => simpa using le_of_not_lt (by simpa using h)

theorem validUnit_nonblank (cfg : ConsolidationConfig) (idx : Nat) (u : Option String)
    (hu : isBlank cfg.defaultUnit.data = false) : isBlank (validUnit cfg idx u).1.data = false := by
  unfold validUnit
  cases u with
  | none => simpa using hu
  | some s =>
    simp only
    split
    next => simpa using hu
    next h => simpa using h

theorem validLocation_nonblank (cfg : ConsolidationConfig) (idx : Nat) (u : Option String)
    (hl : isBlank cfg.defaultLocation.data = false) :
    isBlank (validLocation cfg idx u).1.data = false := by
  unfold validLocation
  cases u with
  | none => simpa using hl
  | some s =>
    simp only
    split
    next => simpa using hl
    next h => simpa using h

theorem validate_some_eq (cfg : ConsolidationConfig) (idx : Nat) (row : RawRow)
    (hb : isBlank (row.ingredientName.getD "").data = false) :
    (validate cfg idx row).1 =
      some ⟨row.dishName, row.ingredientName.getD "",
        (validQuantity cfg idx row.quantity).1, (validUnit cfg idx row.unit).1,
        (validLocation cfg idx row.location).1, (validPrice cfg idx row.price).1, idx⟩ := by
  unfold validate
  simp [hb]

theorem validate_some_fields (cfg : ConsolidationConfig) (idx : Nat) (row : RawRow)
    (l : ValidatedLine) (h : (validate cfg idx row).1 = some l) :
    l.ingredientName = row.ingredientName.getD "" ∧
    l.rowIndex = idx ∧
    l.dishName = row.dishName ∧
    isBlank l.ingredientName.data = false ∧
    (0 < cfg.defaultQuantity → 0 < l.quantity) ∧
    (0 ≤ cfg.defaultPrice → 0 ≤ l.price) ∧
    (isBlank cfg.defaultUnit.data = false → isBlank l.unit.data = false) ∧
    (isBlank cfg.defaultLocation.data = false → isBlank l.location.data = false) := by
  by_cases hb : isBlank (row.ingredientName.getD "").data
  · rw [(validate_skip_iff cfg idx row).mpr hb] at h
    exact absurd h (by simp)
  · rw [validate_some_eq cfg idx row (by simpa using hb)] at h
    have h2 := Option.some.injEq _ _ ▸ h
    simp only [Option.some.injEq] at h2
    subst h2
    refine ⟨rfl, rfl, rfl, by simpa using hb,
      fun hq => validQuantity_pos cfg idx row.quantity hq,
      fun hp => validPrice_nonneg cfg idx row.price hp,
      fun hu => validUnit_nonblank cfg idx row.unit hu,
      fun hl => validLocation_nonblank cfg idx row.location hl⟩

theorem validateGo_mem (cfg : ConsolidationConfig) :
    ∀ (rows : List RawRow) (idx : Nat) (l : ValidatedLine),
      l ∈ (validateGo cfg idx rows).1 →
      ∃ i row, row ∈ rows ∧ (validate cfg i row).1 = some l := by
  intro rows
  induction rows with
  | nil =>
    intro idx l hl
    simp [validateGo] at hl
  | cons r rs ih =>
    intro idx l hl
    rw [validateGo] at hl
    revert hl
    split
    next vs wss sk hv heq =>
      intro hl
      obtain ⟨i, row, hrow, hval⟩ := ih (idx + 1) l (by rw [heq]; exact hl)
      exact ⟨i, row, List.mem_cons_of_mem _ hrow, hval⟩
    next l0 vs wss sk hv heq =>
      intro hl
      rcases List.mem_cons.mp hl with rfl | hl
      · exact ⟨idx, r, List.mem_cons_self _ _, hv⟩
      · obtain ⟨i, row, hrow, hval⟩ := ih (idx + 1) l (by rw [heq]; exact hl)
        exact ⟨i, row, List.mem_cons_of_mem _ hrow, hval⟩

/-! ## Theorems: normalizer positivity and the never-negative invariant -/

theorem normalize_line_eq (tbl : UnitTable) (cfg : ConsolidationConfig) (l : ValidatedLine) :
    (normalize tbl cfg l).line = l := by
  unfold normalize
  split
  · split
    · rfl
    · split <;> rfl
  · rfl

theorem resolveUnit_mem {tbl : UnitTable} {u : String} {ud : UnitDefinition}
    (h : resolveUnit tbl u = some ud) : ud ∈ tbl.units := by
  unfold resolveUnit at h
  exact List.mem_of_find?_eq_some h

theorem resolveDensity_mem {tbl : UnitTable} {cn : String} {ud : UnitDefinition}
    {ov : DensityOverride} (h : resolveDensity tbl cn ud = some ov) : ov ∈ tbl.overrides := by
  unfold resolveDensity at h
  split at h
  · exact List.mem_of_find?_eq_some h
  · exact absurd h (by simp)

theorem normalize_baseQuantity_pos (tbl : UnitTable) (cfg : ConsolidationConfig)
    (l : ValidatedLine) (hu : ∀ d ∈ tbl.units, 0 < d.factorToBase)
    (ho : ∀ ov ∈ tbl.overrides, 0 < ov.toBaseWeightFactor)
    (hq : 0 < l.quantity) : 0 < (normalize tbl cfg l).baseQuantity := by
  unfold normalize
  split
  · split
    next => simpa using hq
    next ud hres =>
      split
      next ov hov =>
        simpa using mul_pos hq (ho ov (resolveDensity_mem hov))
      next =>
        simpa using mul_pos hq (hu ud (resolveUnit_mem hres))
  · simpa using hq

theorem run_lines_pos (tbl : UnitTable) (rows : List RawRow) (cfg : ConsolidationConfig)
    (hq : 0 < cfg.defaultQuantity) (hp : 0 ≤ cfg.defaultPrice)
    (hu : ∀ d ∈ tbl.units, 0 < d.factorToBase)
    (ho : ∀ ov ∈ tbl.overrides, 0 < ov.toBaseWeightFactor) :
    ∀ m ∈ (validateAll cfg rows).1.map (normalize tbl cfg),
      0 < m.baseQuantity ∧ 0 ≤ m.line.price := by
  intro m hm
  obtain ⟨l, hl, heq⟩ := List.exists_of_mem_map hm
  obtain ⟨i, row, hrow, hval⟩ := validateGo_mem cfg rows 1 l hl
  obtain ⟨-, -, -, -, hqpos, hpnn, -, -⟩ := validate_some_fields cfg i row l hval
  subst heq
  refine ⟨normalize_baseQuantity_pos tbl cfg l hu ho (hqpos hq), ?_⟩
  rw [normalize_line_eq]
  exact hpnn hp

theorem consolidate_totals (cfg : ConsolidationConfig) (ns : List NormalizedLine)
    (h : ∀ m ∈ ns, 0 < m.baseQuantity ∧ 0 ≤ m.line.price) :
    ∀ it ∈ consolidate cfg ns, 0 < it.totalQuantity ∧ 0 ≤ it.totalPrice := by
  intro it hit
  obtain ⟨hsrc, n, members, hsl, hmk⟩ :=
    consolidate_char cfg ns.length ns (Nat.le_refl _) it hit
  have hsub : ∀ m ∈ n :: members, m ∈ ns := by
    intro m hm
    rw [← hsl, hsrc] at hm
    exact (List.mem_filter.mp hm).1
  have hq : it.totalQuantity = ((n :: members).map (fun m => m.baseQuantity)).sum := by
    rw [hmk]; rfl
  have hp : it.totalPrice = ((n :: members).map (fun m => m.line.price)).sum := by
    rw [hmk]; rfl
  constructor
  · rw [hq, List.map_cons, List.sum_cons]
    have h1 : 0 < n.baseQuantity := (h n (hsub n (List.mem_cons_self _ _))).1
    have h2 : 0 ≤ (members.map (fun m => m.baseQuantity)).sum := by
      apply List.sum_nonneg
      intro x hx
      obtain ⟨m, hm, rfl⟩ := List.exists_of_mem_map hx
      exact le_of_lt (h m (hsub m (List.mem_cons_of_mem _ hm))).1
    linarith
  · rw [hp]
    apply List.sum_nonneg
    intro x hx
    obtain ⟨m, hm, rfl⟩ := List.exists_of_mem_map hx
    exact (h m (hsub m hm)).2

/-- C3: never-negative invariant: whatever the input rows (including
negative or malformed quantities and prices), when the configured default
quantity is positive and the default price non-negative (and the unit
table's factors are positive), every consolidated item has a non-negative
total quantity and total price, because non-positive quantities are clamped
to the positive default before summation. -/
theorem c3_never_negative (tbl : UnitTable) (rows : List RawRow) (cfg : ConsolidationConfig)
    (hq : 0 < cfg.defaultQuantity) (hp : 0 ≤ cfg.defaultPrice)
    (hu : ∀ d ∈ tbl.units, 0 < d.factorToBase)
    (ho : ∀ ov ∈ tbl.overrides, 0 < ov.toBaseWeightFactor) :
    ∀ it ∈ (normalizeAndConsolidate tbl rows cfg).items,
      0 ≤ it.totalQuantity ∧ 0 ≤ it.totalPrice := by
  intro it hit
  have hit' : it ∈ consolidate cfg ((validateAll cfg rows).1.map (normalize tbl cfg)) := hit
  have := consolidate_totals cfg _ (run_lines_pos tbl rows cfg hq hp hu ho) it hit'
  exact ⟨le_of_lt this.1, this.2⟩

/-! ## Theorems: the validator row-skip criterion -/

theorem validQuantity_kinds (cfg : ConsolidationConfig) (idx : Nat) (rv : RawValue)
    (w : ValidationWarning) (hw : w ∈ (validQuantity cfg idx rv).2) :
    w.kind ≠ WarningKind.negativePrice := by
  unfold validQuantity at hw
  cases rv <;> simp only at hw <;> split at hw <;> simp at hw <;>
    first
    | (rcases hw with rfl | rfl <;> simp)
    | (subst hw; simp)

/-- C4 counterexample: the claim says a warning is emitted for each
defaulted field except price; but a kept row whose price is negative has its
price clamped to the default and does get a (price) warning, here the only
warning of the row. -/
theorem c4_counterexample :
    (validate sampleConfig 1 negPriceRow).1 ≠ none ∧
    (validate sampleConfig 1 negPriceRow).2 = [⟨1, WarningKind.negativePrice⟩] ∧
    ((validate sampleConfig 1 negPriceRow).1.map (fun l => l.price)) =
      some sampleConfig.defaultPrice := by
  refine ⟨?_, ?_, ?_⟩ <;> decide

/-- C4 (amended): `validate` returns `None` iff the ingredient name is blank
after trimming, and a skipped row emits no warnings; a kept row has every
other missing or invalid field replaced by its configured default with a
warning for each defaulted quantity, unit and location; a missing or
non-numeric price is defaulted silently, while a negative price is clamped
to the default with a warning. -/
theorem c4_skip_iff_amended (cfg : ConsolidationConfig) (idx : Nat) (row : RawRow) :
    ((validate cfg idx row).1 = none ↔ isBlank (row.ingredientName.getD "").data = true) ∧
    ((validate cfg idx row).1 = none → (validate cfg idx row).2 = []) ∧
    (isBlank (row.ingredientName.getD "").data = false →
      (validate cfg idx row).1 ≠ none ∧
      (row.quantity = RawValue.missing →
        (∃ w ∈ (validate cfg idx row).2, w.kind = WarningKind.missingQuantity) ∧
        ((validate cfg idx row).1.map (fun l => l.quantity)) = some cfg.defaultQuantity) ∧
      (∀ raw, row.quantity = RawValue.invalid raw →
        (∃ w ∈ (validate cfg idx row).2, w.kind = WarningKind.invalidQuantity raw) ∧
        ((validate cfg idx row).1.map (fun l => l.quantity)) = some cfg.defaultQuantity) ∧
      (row.unit = none →
        (∃ w ∈ (validate cfg idx row).2, w.kind = WarningKind.missingUnit) ∧
        ((validate cfg idx row).1.map (fun l => l.unit)) = some cfg.defaultUnit) ∧
      (row.location = none →
        (∃ w ∈ (validate cfg idx row).2, w.kind = WarningKind.missingLocation) ∧
        ((validate cfg idx row).1.map (fun l => l.location)) = some cfg.defaultLocation) ∧
      (row.price = RawValue.missing →
        (∀ w ∈ (validate cfg idx row).2, w.kind ≠ WarningKind.negativePrice) ∧
        ((validate cfg idx row).1.map (fun l => l.price)) = some cfg.defaultPrice) ∧
      (∀ raw, row.price = RawValue.invalid raw →
        (∀ w ∈ (validate cfg idx row).2, w.kind ≠ WarningKind.negativePrice) ∧
        ((validate cfg idx row).1.map (fun l => l.price)) = some cfg.defaultPrice) ∧
      (∀ p, row.price = RawValue.num p → p < 0 →
        (∃ w ∈ (validate cfg idx row).2, w.kind = WarningKind.negativePrice) ∧
        ((validate cfg idx row).1.map (fun l => l.price)) = some cfg.defaultPrice)) := by
  refine ⟨validate_skip_iff cfg idx row, validate_skip_no_warnings cfg idx row, ?_⟩
  intro hb
  have h1 := validate_some_eq cfg idx row hb
  have h2 : (validate cfg idx row).2 =
      (validQuantity cfg idx row.quantity).2 ++ (validUnit cfg idx row.unit).2 ++
        (validLocation cfg idx row.location).2 ++ (validPrice cfg idx row.price).2 := by
    unfold validate
    simp [hb]
  refine ⟨by rw [h1]; simp, ?_, ?_, ?_, ?_, ?_, ?_, ?_⟩
  · intro hq
    constructor
    · refine ⟨⟨idx, WarningKind.missingQuantity⟩, ?_, rfl⟩
      rw [h2]
      have : ⟨idx, WarningKind.missingQuantity⟩ ∈ (validQuantity cfg idx row.quantity).2 := by
        rw [hq]
        unfold validQuantity
        simp only
        split <;> simp
      simp [List.mem_append, this]
    · rw [h1]
      simp only [Option.map_some']
      rw [hq]
      unfold validQuantity
      simp only
      split <;> simp
  · intro raw hq
    constructor
    · refine ⟨⟨idx, WarningKind.invalidQuantity raw⟩, ?_, rfl⟩
      rw [h2]
      have : ⟨idx, WarningKind.invalidQuantity raw⟩ ∈ (validQuantity cfg idx row.quantity).2 := by
        rw [hq]
        unfold validQuantity
        simp only
        split <;> simp
      simp [List.mem_append, this]
    · rw [h1]
      simp only [Option.map_some']
      rw [hq]
      unfold validQuantity
      simp only
      split <;> simp
  · intro hu
    constructor
    · refine ⟨⟨idx, WarningKind.missingUnit⟩, ?_, rfl⟩
      rw [h2]
      have : ⟨idx, WarningKind.missingUnit⟩ ∈ (validUnit cfg idx row.unit).2 := by
        rw [hu]
        unfold validUnit
        simp
      simp [List.mem_append, this]
    · rw [h1]
      simp only [Option.map_some']
      rw [hu]
      unfold validUnit
      simp
  · intro hl
    constructor
    · refine ⟨⟨idx, WarningKind.missingLocation⟩, ?_, rfl⟩
      rw [h2]
      have : ⟨idx, WarningKind.missingLocation⟩ ∈ (validLocation cfg idx row.location).2 := by
        rw [hl]
        unfold validLocation
        simp
      simp [List.mem_append, this]
    · rw [h1]
      simp only [Option.map_some']
      rw [hl]
      unfold validLocation
      simp
  · intro hp
    constructor
    · intro w hw
      rw [h2, hp] at hw
      simp only [List.mem_append] at hw
      rcases hw with ((hw | hw) | hw) | hw
      · exact validQuantity_kinds cfg idx row.quantity w hw
      · revert hw
        unfold validUnit
        split
        · intro hw
          simp at hw
          rw [hw]
          simp
        · split
          · intro hw
            simp at hw
            rw [hw]
            simp
          · intro hw
            simp at hw
      · revert hw
        unfold validLocation
        split
        · intro hw
          simp at hw
          rw [hw]
          simp
        · split
          · intro hw
            simp at hw
            rw [hw]
            simp
          · intro hw
            simp at hw
      · revert hw
        unfold validPrice
        simp
    · rw [h1]
      simp only [Option.map_some']
      rw [hp]
      unfold validPrice
      simp
  · intro raw hp
    constructor
    · intro w hw
      rw [h2, hp] at hw
      simp only [List.mem_append] at hw
      rcases hw with ((hw | hw) | hw) | hw
      · exact validQuantity_kinds cfg idx row.quantity w hw
      · revert hw
        unfold validUnit
        split
        · intro hw
          simp at hw
          rw [hw]
          simp
        · split
          · intro hw
            simp at hw
            rw [hw]
            simp
          · intro hw
            simp at hw
      · revert hw
        unfold validLocation
        split
        · intro hw
          simp at hw
          rw [hw]
          simp
        · split
          · intro hw
            simp at hw
            rw [hw]
            simp
          · intro hw
            simp at hw
      · revert hw
        unfold validPrice
        simp
    · rw [h1]
      simp only [Option.map_some']
      rw [hp]
      unfold validPrice
      simp
  · intro p hp hneg
    constructor
    · refine ⟨⟨idx, WarningKind.negativePrice⟩, ?_, rfl⟩
      rw [h2]
      have : ⟨idx, WarningKind.negativePrice⟩ ∈ (validPrice cfg idx row.price).2 := by
        rw [hp]
        unfold validPrice
        simp [hneg]
      simp [List.mem_append, this]
    · rw [h1]
      simp only [Option.map_some']
      rw [hp]
      unfold validPrice
      simp [hneg]

/-! ## Theorems: density override precedence and disabled conversion -/

/-- C6: density-override precedence: a validated line whose unit resolves to
a Volume definition and whose ingredient name matches a density override is
converted with the override's base weight factor (not the unit table's
generic volume factor), landing in the Weight dimension with a recorded
conversion description; concretely, 1 cup of sugar plus 8 oz of sugar with
the cup-of-sugar -> 7.05 oz override consolidates to one item of 15.05 oz
with exactly one entry in `conversionsApplied`. -/
theorem c6_density_override (tbl : UnitTable) (cfg : ConsolidationConfig)
    (l : ValidatedLine) (ud : UnitDefinition) (ov : DensityOverride)
    (henabled : cfg.unitConversionEnabled = true)
    (hres : resolveUnit tbl l.unit = some ud)
    (hov : resolveDensity tbl (canonicalName l.ingredientName) ud = some ov) :
    (normalize tbl cfg l).baseQuantity = l.quantity * ov.toBaseWeightFactor ∧
    (normalize tbl cfg l).dimension = Dimension.weight ∧
    (normalize tbl cfg l).baseUnit = tbl.baseUnitName Dimension.weight ∧
    (normalize tbl cfg l).conversionApplied =
      some (convDesc l ov (tbl.baseUnitName Dimension.weight)) ∧
    ((normalizeAndConsolidate sampleTable sugarRows sampleConfig).items.map
      (fun it => (it.totalQuantity, it.unit))) = [((301 : ℚ)/20, "oz")] ∧
    (normalizeAndConsolidate sampleTable sugarRows sampleConfig).conversionsApplied.length
      = 1 := by
  have hnorm : normalize tbl cfg l =
      ⟨l, l.quantity * ov.toBaseWeightFactor, tbl.baseUnitName Dimension.weight,
        Dimension.weight, some (convDesc l ov (tbl.baseUnitName Dimension.weight))⟩ := by
    unfold normalize
    rw [henabled]
    simp only [if_true, hres, hov]
  refine ⟨by rw [hnorm], by rw [hnorm], by rw [hnorm], by rw [hnorm], ?_, by decide⟩
  rw [show (normalizeAndConsolidate sampleTable sugarRows sampleConfig).items.map
    (fun it => (it.totalQuantity, it.unit)) = [(1 * mkRat 141 20 + (8 * 1 + 0), "oz")] from rfl]
  norm_num [Rat.mkRat_eq_div]

/-- C8: disabling unit conversion: when `unitConversionEnabled` is false the
normalizer passes the line through unchanged (no dimensional conversion) and
grouping is by location, canonical ingredient name and raw unit; the sugar
cup/oz input then yields two separate items and `conversionsApplied` is
empty. -/
theorem c8_disabled_conversion (tbl : UnitTable) (cfg : ConsolidationConfig)
    (l : ValidatedLine) (n : NormalizedLine) (rows : List RawRow)
    (h : cfg.unitConversionEnabled = false) :
    normalize tbl cfg l = ⟨l, l.quantity, l.unit, Dimension.count, none⟩ ∧
    groupKey cfg n = ⟨n.line.location, canonicalName n.line.ingredientName,
      UnitKey.raw n.line.unit⟩ ∧
    (normalizeAndConsolidate tbl rows cfg).conversionsApplied = [] ∧
    (normalizeAndConsolidate sampleTable sugarRows sampleConfigNoConv).items.length = 2 ∧
    (normalizeAndConsolidate sampleTable sugarRows sampleConfigNoConv).conversionsApplied
      = [] := by
  refine ⟨?_, ?_, ?_, by decide, by decide⟩
  · unfold normalize
    rw [h]
    simp
  · unfold groupKey
    rw [h]
    simp
  · have hmap : (((validateAll cfg rows).1.map (normalize tbl cfg)).filterMap
        (fun n => n.conversionApplied)) = [] := by
      rw [List.filterMap_map]
      apply List.filterMap_eq_nil_iff.mpr
      intro a ha
      show (normalize tbl cfg a).conversionApplied = none
      unfold normalize
      rw [h]
      simp
    show firstSeen (((validateAll cfg rows).1.map (normalize tbl cfg)).filterMap
      (fun n => n.conversionApplied)) = []
    rw [hmap]
    exact firstSeen_nil

/-! ## String lemmas for re-consolidation -/

theorem toLower_idem (c : Char) : c.toLower.toLower = c.toLower := by
  unfold Char.toLower
  by_cases h : c.toNat ≥ 65 ∧ c.toNat ≤ 90
  · rw [if_pos h]
    have hv : (c.toNat + 32).isValidChar := Or.inl (by omega)
    have ht : (Char.ofNat (c.toNat + 32)).toNat = c.toNat + 32 := by
      unfold Char.ofNat
      rw [dif_pos hv]
      rfl
    rw [if_neg (by rw [ht]; omega)]
  · rw [if_neg h, if_neg h]

theorem isWSb_toLower (c : Char) : isWSb c.toLower = isWSb c := by
  unfold Char.toLower
  by_cases h : c.toNat ≥ 65 ∧ c.toNat ≤ 90
  · rw [if_pos h]
    have hv : (c.toNat + 32).isValidChar := Or.inl (by omega)
    have ht : (Char.ofNat (c.toNat + 32)).toNat = c.toNat + 32 := by
      unfold Char.ofNat
      rw [dif_pos hv]
      rfl
    have l : isWSb (Char.ofNat (c.toNat + 32)) = false := by
      simp [isWSb, ht]
      omega
    have r : isWSb c = false := by
      simp [isWSb]
      omega
    rw [l, r]
  · rw [if_neg h]

theorem wordsAux_ok : ∀ (cs acc : List Char), (∀ c ∈ acc, isWSb c = false) →
    ∀ w ∈ wordsAux cs acc, w ≠ [] ∧ ∀ c ∈ w, isWSb c = false := by
  intro cs
  induction cs with
  | nil =>
    intro acc hacc w hw
    unfold wordsAux at hw
    split at hw
    · simp at hw
    next hne =>
      simp only [List.mem_singleton] at hw
      subst hw
      refine ⟨by simpa using hne, ?_⟩
      intro c hc
      exact hacc c (List.mem_reverse.mp hc)
  | cons c cs ih =>
    intro acc hacc w hw
    unfold wordsAux at hw
    split at hw
    next hws =>
      split at hw
      · exact ih [] (by simp) w hw
      next hne =>
        rcases List.mem_cons.mp hw with rfl | hw
        · refine ⟨by simpa using hne, ?_⟩
          intro x hx
          exact hacc x (List.mem_reverse.mp hx)
        · exact ih [] (by simp) w hw
    next hws =>
      refine ih (c :: acc) ?_ w hw
      intro x hx
      rcases List.mem_cons.mp hx with rfl | hx
      · simpa using hws
      · exact hacc x hx

theorem wordsAux_chars : ∀ (cs acc : List Char), ∀ w ∈ wordsAux cs acc, ∀ c ∈ w,
    c ∈ cs ∨ c ∈ acc := by
  intro cs
  induction cs with
  | nil =>
    intro acc w hw c hc
    unfold wordsAux at hw
    split at hw
    · simp at hw
    · simp only [List.mem_singleton] at hw
      subst hw
      exact Or.inr (List.mem_reverse.mp hc)
  | cons x cs ih =>
    intro acc w hw c hc
    unfold wordsAux at hw
    split at hw
    next hws =>
      split at hw
      · rcases ih [] w hw c hc with h | h
        · exact Or.inl (List.mem_cons_of_mem _ h)
        · simp at h
      next =>
        rcases List.mem_cons.mp hw with rfl | hw
        · exact Or.inr (List.mem_reverse.mp hc)
        · rcases ih [] w hw c hc with h | h
          · exact Or.inl (List.mem_cons_of_mem _ h)
          · simp at h
    next hws =>
      rcases ih (x :: acc) w hw c hc with h | h
      · exact Or.inl (List.mem_cons_of_mem _ h)
      · rcases List.mem_cons.mp h with rfl | h
        · exact Or.inl (List.mem_cons_self _ _)
        · exact Or.inr h

theorem lowerList_joinWords : ∀ ws : List (List Char),
    lowerList (joinWords ws) = joinWords (ws.map lowerList) := by
  intro ws
  induction ws with
  | nil => rfl
  | cons w ws ih =>
    cases ws with
    | nil => rfl
    | cons w2 ws2 =>
      show lowerList (w ++ ' ' :: joinWords (w2 :: ws2)) = _
      rw [show (joinWords ((w :: w2 :: ws2).map lowerList)) =
        lowerList w ++ ' ' :: joinWords ((w2 :: ws2).map lowerList) from rfl]
      unfold lowerList at ih ⊢
      rw [List.map_append, List.map_cons]
      rw [show ' '.toLower = ' ' from by decide]
      rw [ih]

theorem lowerList_fixed (w : List Char) (h : ∀ c ∈ w, c.toLower = c) : lowerList w = w := by
  unfold lowerList
  calc w.map Char.toLower = w.map id := List.map_congr_left h
  _ = w := List.map_id w

theorem canonChars_lower_fixed (cs : List Char) :
    lowerList (canonChars cs) = canonChars cs := by
  unfold canonChars
  rw [lowerList_joinWords]
  congr 1
  have hfix : ∀ w ∈ wordsAux (lowerList cs) [], lowerList w = w := by
    intro w hw
    apply lowerList_fixed
    intro c hc
    rcases wordsAux_chars (lowerList cs) [] w hw c hc with h | h
    · obtain ⟨c0, -, rfl⟩ := List.exists_of_mem_map h
      exact toLower_idem c0
    · simp at h
  calc (wordsAux (lowerList cs) []).map lowerList
      = (wordsAux (lowerList cs) []).map id := List.map_congr_left hfix
    _ = wordsAux (lowerList cs) [] := List.map_id _

theorem wordsAux_cons (c : Char) (cs acc : List Char) :
    wordsAux (c :: cs) acc =
      if isWSb c then (if acc = [] then wordsAux cs [] else acc.reverse :: wordsAux cs [])
      else wordsAux cs (c :: acc) := rfl

theorem wordsAux_word_append : ∀ (w cs acc : List Char), (∀ c ∈ w, isWSb c = false) →
    wordsAux (w ++ cs) acc = wordsAux cs (w.reverse ++ acc) := by
  intro w
  induction w with
  | nil =>
    intro cs acc h
    simp
  | cons c w ih =>
    intro cs acc h
    have hc : isWSb c = false := h c (List.mem_cons_self _ _)
    show wordsAux (c :: (w ++ cs)) acc = _
    rw [wordsAux_cons, hc]
    simp only [Bool.false_eq_true, if_false]
    rw [ih cs (c :: acc) (fun x hx => h x (List.mem_cons_of_mem _ hx))]
    congr 1
    simp

theorem wordsAux_joinWords : ∀ ws : List (List Char),
    (∀ w ∈ ws, w ≠ [] ∧ ∀ c ∈ w, isWSb c = false) →
    wordsAux (joinWords ws) [] = ws := by
  intro ws
  induction ws with
  | nil =>
    intro _h
    rfl
  | cons w ws ih =>
    intro h
    obtain ⟨hne, hok⟩ := h w (List.mem_cons_self _ _)
    cases ws with
    | nil =>
      show wordsAux w [] = [w]
      have ha := wordsAux_word_append w [] [] hok
      simp only [List.append_nil] at ha
      rw [ha]
      show (if w.reverse = [] then [] else [w.reverse.reverse]) = [w]
      rw [if_neg (by simp [hne])]
      simp
    | cons w2 ws2 =>
      show wordsAux (w ++ ' ' :: joinWords (w2 :: ws2)) [] = w :: w2 :: ws2
      rw [wordsAux_word_append w _ [] hok]
      simp only [List.append_nil]
      rw [wordsAux_cons]
      rw [show isWSb ' ' = true from by decide]
      simp only [if_true]
      rw [if_neg (by simp [hne])]
      rw [ih (fun x hx => h x (List.mem_cons_of_mem _ hx))]
      simp

theorem canonChars_idem (cs : List Char) : canonChars (canonChars cs) = canonChars cs := by
  have h1 : canonChars (canonChars cs) = joinWords (wordsAux (lowerList (canonChars cs)) []) :=
    rfl
  rw [h1, canonChars_lower_fixed]
  rw [show canonChars cs = joinWords (wordsAux (lowerList cs) []) from rfl]
  rw [wordsAux_joinWords _ (wordsAux_ok (lowerList cs) [] (by simp))]

theorem canonicalName_idem (s : String) :
    canonicalName (canonicalName s) = canonicalName s := by
  unfold canonicalName
  congr 1
  exact canonChars_idem s.data

theorem isBlank_false_iff (cs : List Char) :
    isBlank cs = false ↔ ∃ c ∈ cs, isWSb c = false := by
  unfold isBlank
  constructor
  · intro h
    by_contra hne
    push_neg at hne
    have : cs.all isWSb = true := by
      rw [List.all_eq_true]
      intro c hc
      have := hne c hc
      revert this
      cases isWSb c <;> simp
    rw [this] at h
    exact absurd h (by simp)
  · rintro ⟨c, hc, hw⟩
    cases hall : cs.all isWSb
    · rfl
    · have := List.all_eq_true.mp hall c hc
      rw [this] at hw
      exact absurd hw (by simp)

theorem wordsAux_ne_nil : ∀ (cs acc : List Char),
    (∃ c ∈ cs, isWSb c = false) ∨ acc ≠ [] → wordsAux cs acc ≠ [] := by
  intro cs
  induction cs with
  | nil =>
    intro acc h
    rcases h with ⟨c, hc, -⟩ | h
    · simp at hc
    · unfold wordsAux
      rw [if_neg h]
      simp
  | cons c cs ih =>
    intro acc h
    unfold wordsAux
    split
    next hws =>
      split
      next hacc =>
        apply ih
        left
        rcases h with ⟨x, hx, hxw⟩ | hne
        · rcases List.mem_cons.mp hx with rfl | hx
          · rw [hws] at hxw
            exact absurd hxw (by simp)
          · exact ⟨x, hx, hxw⟩
        · exact absurd hne (by simp [hacc])
      next => simp
    next hws =>
      apply ih
      right
      simp

theorem canonChars_nonblank (cs : List Char) (h : isBlank cs = false) :
    isBlank (canonChars cs) = false := by
  rw [isBlank_false_iff] at h ⊢
  obtain ⟨c, hc, hw⟩ := h
  have hlow : ∃ c ∈ lowerList cs, isWSb c = false := by
    refine ⟨c.toLower, List.mem_map_of_mem _ hc, by rw [isWSb_toLower]; exact hw⟩
  unfold canonChars
  have hne := wordsAux_ne_nil (lowerList cs) [] (Or.inl hlow)
  match hws : wordsAux (lowerList cs) [] with
  | [] => exact absurd hws hne
  | w :: rest =>
    obtain ⟨hwne, hwok⟩ := wordsAux_ok (lowerList cs) [] (by simp) w
      (by rw [hws]; exact List.mem_cons_self _ _)
    match hw2 : w with
    | [] => exact absurd rfl hwne
    | x :: xs =>
      refine ⟨x, ?_, hwok x (List.mem_cons_self _ _)⟩
      cases rest with
      | nil => exact List.mem_cons_self _ _
      | cons r rs =>
        show x ∈ (x :: xs) ++ ' ' :: joinWords (r :: rs)
        simp

/-! ## Re-consolidation idempotence -/

theorem validQuantity_num_pos (cfg : ConsolidationConfig) (idx : Nat) (q : ℚ) (h : 0 < q) :
    validQuantity cfg idx (RawValue.num q) = (q, []) := by
  unfold validQuantity
  simp only
  rw [if_neg (not_le.mpr h)]

theorem validPrice_num_nonneg (cfg : ConsolidationConfig) (idx : Nat) (p : ℚ) (h : 0 ≤ p) :
    validPrice cfg idx (RawValue.num p) = (p, []) := by
  unfold validPrice
  simp only
  rw [if_neg (not_lt.mpr h)]

theorem validUnit_some_nonblank (cfg : ConsolidationConfig) (idx : Nat) (u : String)
    (h : isBlank u.data = false) : validUnit cfg idx (some u) = (u, []) := by
  unfold validUnit
  simp only
  rw [if_neg (by simp [h])]

theorem validLocation_some_nonblank (cfg : ConsolidationConfig) (idx : Nat) (u : String)
    (h : isBlank u.data = false) : validLocation cfg idx (some u) = (u, []) := by
  unfold validLocation
  simp only
  rw [if_neg (by simp [h])]

theorem validate_keep (cfg : ConsolidationConfig) (idx : Nat) (name u loc : String) (q p : ℚ)
    (hn : isBlank name.data = false) (hq : 0 < q) (hp : 0 ≤ p)
    (hu : isBlank u.data = false) (hl : isBlank loc.data = false) :
    validate cfg idx
        ⟨none, some name, RawValue.num q, some u, some loc, RawValue.num p, none, none⟩ =
      (some ⟨none, name, q, u, loc, p, idx⟩, []) := by
  unfold validate
  simp only [Option.getD_some]
  rw [if_neg (by simp [hn])]
  rw [validQuantity_num_pos cfg idx q hq, validPrice_num_nonneg cfg idx p hp,
    validUnit_some_nonblank cfg idx u hu, validLocation_some_nonblank cfg idx loc hl]
  simp

theorem validateGo_refeed (cfg : ConsolidationConfig) :
    ∀ (items : List ConsolidatedItem),
      (∀ it ∈ items, isBlank it.ingredientName.data = false ∧ 0 < it.totalQuantity ∧
        0 ≤ it.totalPrice ∧ isBlank it.unit.data = false ∧ isBlank it.location.data = false) →
      ∀ idx, validateGo cfg idx (items.map itemToRow) = (refeedLines idx items, [], 0) := by
  intro items
  induction items with
  | nil => intro _ idx; rfl
  | cons it items ih =>
    intro h idx
    obtain ⟨hn, hq, hp, hu, hl⟩ := h it (List.mem_cons_self _ _)
    have hv : validate cfg idx (itemToRow it) = (some (refeedLine idx it), []) :=
      validate_keep cfg idx it.ingredientName it.unit it.location it.totalQuantity
        it.totalPrice hn hq hp hu hl
    show validateGo cfg idx (itemToRow it :: items.map itemToRow) = _
    rw [validateGo, hv, ih (fun x hx => h x (List.mem_cons_of_mem _ hx)) (idx + 1)]
    rfl

theorem resolveDensity_not_volume (tbl : UnitTable) (cn : String) (ud : UnitDefinition)
    (h : ud.dimension ≠ Dimension.volume) : resolveDensity tbl cn ud = none := by
  unfold resolveDensity
  rw [if_neg h]

theorem resolveDensity_no_override (tbl : UnitTable) (cn : String) (ud : UnitDefinition)
    (h : ∀ ov ∈ tbl.overrides, eqCI ov.fromUnit ud.name = false) :
    resolveDensity tbl cn ud = none := by
  unfold resolveDensity
  split
  · apply List.find?_eq_none.mpr
    intro ov hov
    simp [h ov hov]
  · rfl

theorem refeed_normalize (tbl : UnitTable) (cfg : ConsolidationConfig) (hwf : TableWF tbl)
    (l v' : ValidatedLine)
    (hname : v'.ingredientName = canonicalName l.ingredientName)
    (hunit : v'.unit = (normalize tbl cfg l).baseUnit)
    (hloc : v'.location = l.location) :
    groupKey cfg (normalize tbl cfg v') = groupKey cfg (normalize tbl cfg l) ∧
    (normalize tbl cfg v').baseQuantity = v'.quantity ∧
    (normalize tbl cfg v').baseUnit = v'.unit := by
  obtain ⟨hfac, hovfac, hbase, hblank⟩ := hwf
  have hcanon : canonicalName v'.ingredientName = canonicalName l.ingredientName := by
    rw [hname, canonicalName_idem]
  cases he : cfg.unitConversionEnabled with
  | false =>
    have hnl : normalize tbl cfg l = ⟨l, l.quantity, l.unit, Dimension.count, none⟩ := by
      unfold normalize
      rw [he]
      simp
    have hnv : normalize tbl cfg v' = ⟨v', v'.quantity, v'.unit, Dimension.count, none⟩ := by
      unfold normalize
      rw [he]
      simp
    refine ⟨?_, by rw [hnv], by rw [hnv]⟩
    unfold groupKey
    rw [he, hnv, hnl]
    simp only [Bool.false_eq_true, if_false]
    rw [hunit, hnl] at *
    simp [hcanon, hloc, hunit]
  | true =>
    cases hres : resolveUnit tbl l.unit with
    | none =>
      have hnl : normalize tbl cfg l = ⟨l, l.quantity, l.unit, Dimension.count, none⟩ := by
        unfold normalize
        rw [he]
        simp only [if_true, hres]
      have hvu : v'.unit = l.unit := by rw [hunit, hnl]
      have hnv : normalize tbl cfg v' = ⟨v', v'.quantity, v'.unit, Dimension.count, none⟩ := by
        unfold normalize
        rw [he]
        simp only [if_true, hvu, hres]
      refine ⟨?_, by rw [hnv], by rw [hnv]⟩
      unfold groupKey
      rw [he, hnv, hnl]
      simp [hcanon, hloc, hvu]
    | some ud =>
      cases hov : resolveDensity tbl (canonicalName l.ingredientName) ud with
      | some ov =>
        have hnl : normalize tbl cfg l =
            ⟨l, l.quantity * ov.toBaseWeightFactor, tbl.baseUnitName Dimension.weight,
              Dimension.weight, some (convDesc l ov (tbl.baseUnitName Dimension.weight))⟩ := by
          unfold normalize
          rw [he]
          simp only [if_true, hres, hov]
        have hvu : v'.unit = tbl.baseUnitName Dimension.weight := by rw [hunit, hnl]
        obtain ⟨du, hdures, hdudim, hdufac, hduov⟩ := hbase Dimension.weight
        have hnv : normalize tbl cfg v' =
            ⟨v', v'.quantity * du.factorToBase, tbl.baseUnitName du.dimension,
              du.dimension, none⟩ := by
          unfold normalize
          rw [he]
          simp only [if_true, hvu, hdures,
            resolveDensity_not_volume tbl _ du (by rw [hdudim]; simp)]
        refine ⟨?_, by rw [hnv]; simp [hdufac], by rw [hnv, hdudim, hvu]⟩
        unfold groupKey
        rw [he, hnv, hnl]
        simp [hcanon, hloc, hdudim, hvu]
      | none =>
        have hnl : normalize tbl cfg l =
            ⟨l, l.quantity * ud.factorToBase, tbl.baseUnitName ud.dimension,
              ud.dimension, none⟩ := by
          unfold normalize
          rw [he]
          simp only [if_true, hres, hov]
        have hvu : v'.unit = tbl.baseUnitName ud.dimension := by rw [hunit, hnl]
        obtain ⟨du, hdures, hdudim, hdufac, hduov⟩ := hbase ud.dimension
        have hnv : normalize tbl cfg v' =
            ⟨v', v'.quantity * du.factorToBase, tbl.baseUnitName du.dimension,
              du.dimension, none⟩ := by
          unfold normalize
          rw [he]
          simp only [if_true, hvu, hdures, resolveDensity_no_override tbl _ du hduov]
        refine ⟨?_, by rw [hnv]; simp [hdufac], by rw [hnv, hdudim, hvu]⟩
        unfold groupKey
        rw [he, hnv, hnl]
        simp [hcanon, hloc, hdudim, hvu]

theorem consolidate_singletons (cfg : ConsolidationConfig) :
    ∀ ns : List NormalizedLine, (ns.map (groupKey cfg)).Nodup →
      consolidate cfg ns = ns.map (fun n => mkItem (groupKey cfg n) n []) := by
  intro ns
  induction ns with
  | nil => intro _; rfl
  | cons n ns ih =>
    intro hnd
    rw [consolidate_cons]
    simp only [List.map_cons, List.nodup_cons] at hnd
    obtain ⟨hnot, hnd⟩ := hnd
    have hfilter1 : ns.filter (fun m => groupKey cfg m == groupKey cfg n) = [] := by
      rw [List.filter_eq_nil_iff]
      intro m hm
      simp only [beq_iff_eq]
      intro hkey
      exact hnot (hkey ▸ List.mem_map_of_mem _ hm)
    have hfilter2 : ns.filter (fun m => !(groupKey cfg m == groupKey cfg n)) = ns := by
      rw [List.filter_eq_self]
      intro m hm
      have hne : groupKey cfg m ≠ groupKey cfg n :=
        fun hkey => hnot (hkey ▸ List.mem_map_of_mem _ hm)
      simp [hne]
    rw [hfilter1, hfilter2, ih hnd]
    rfl

theorem items_keys_nodup (tbl : UnitTable) (rows : List RawRow) (cfg : ConsolidationConfig) :
    (((normalizeAndConsolidate tbl rows cfg).items).map (fun it => it.key)).Nodup := by
  have h : (normalizeAndConsolidate tbl rows cfg).items =
      consolidate cfg ((validateAll cfg rows).1.map (normalize tbl cfg)) := rfl
  rw [h, consolidate_keys cfg ((validateAll cfg rows).1.map (normalize tbl cfg)).length _
    (Nat.le_refl _)]
  exact firstSeen_nodup (((validateAll cfg rows).1.map (normalize tbl cfg)).map
    (groupKey cfg)).length _ (Nat.le_refl _)

theorem item_link (tbl : UnitTable) (rows : List RawRow) (cfg : ConsolidationConfig)
    (hu : isBlank cfg.defaultUnit.data = false)
    (hl : isBlank cfg.defaultLocation.data = false) :
    ∀ it ∈ (normalizeAndConsolidate tbl rows cfg).items,
      ∃ l : ValidatedLine,
        it.ingredientName = canonicalName l.ingredientName ∧
        it.unit = (normalize tbl cfg l).baseUnit ∧
        it.location = l.location ∧
        it.key = groupKey cfg (normalize tbl cfg l) ∧
        isBlank l.ingredientName.data = false ∧
        isBlank l.unit.data = false ∧
        isBlank l.location.data = false := by
  intro it hit
  have hit' : it ∈ consolidate cfg ((validateAll cfg rows).1.map (normalize tbl cfg)) := hit
  obtain ⟨hsrc, n, members, hsl, hmk⟩ :=
    consolidate_char cfg ((validateAll cfg rows).1.map (normalize tbl cfg)).length _
      (Nat.le_refl _) it hit'
  have hn_mem : n ∈ (validateAll cfg rows).1.map (normalize tbl cfg) := by
    have : n ∈ it.sourceLines := by
      rw [hsl]
      exact List.mem_cons_self _ _
    rw [hsrc] at this
    exact (List.mem_filter.mp this).1
  obtain ⟨l, hlmem, heq⟩ := List.exists_of_mem_map hn_mem
  obtain ⟨i, row, hrow, hval⟩ := validateGo_mem cfg rows 1 l hlmem
  obtain ⟨-, -, -, hnameb, -, -, hunitb, hlocb⟩ := validate_some_fields cfg i row l hval
  refine ⟨l, ?_, ?_, ?_, ?_, hnameb, hunitb hu, hlocb hl⟩
  · rw [hmk]
    show canonicalName n.line.ingredientName = canonicalName l.ingredientName
    rw [← heq, normalize_line_eq]
  · rw [hmk]
    show n.baseUnit = (normalize tbl cfg l).baseUnit
    rw [← heq]
  · rw [hmk]
    show n.line.location = l.location
    rw [← heq, normalize_line_eq]
  · rw [hmk]
    show groupKey cfg n = groupKey cfg (normalize tbl cfg l)
    rw [← heq]

theorem normalize_baseUnit_nonblank (tbl : UnitTable) (cfg : ConsolidationConfig)
    (l : ValidatedLine) (hwf : TableWF tbl) (hlu : isBlank l.unit.data = false) :
    isBlank (normalize tbl cfg l).baseUnit.data = false := by
  obtain ⟨-, -, -, hblank⟩ := hwf
  unfold normalize
  split
  · split
    next => simpa using hlu
    next ud hres =>
      split
      next => simpa using hblank Dimension.weight
      next => simpa using hblank ud.dimension
  · simpa using hlu

theorem refeed_point (tbl : UnitTable) (cfg : ConsolidationConfig) (hwf : TableWF tbl)
    (it : ConsolidatedItem) (idx : Nat)
    (hex : ∃ l : ValidatedLine,
      it.ingredientName = canonicalName l.ingredientName ∧
      it.unit = (normalize tbl cfg l).baseUnit ∧
      it.location = l.location ∧
      it.key = groupKey cfg (normalize tbl cfg l)) :
    groupKey cfg (normalize tbl cfg (refeedLine idx it)) = it.key ∧
    itemView (mkItem (groupKey cfg (normalize tbl cfg (refeedLine idx it)))
      (normalize tbl cfg (refeedLine idx it)) []) = itemView it := by
  obtain ⟨l, hname, hunit, hloc, hkey⟩ := hex
  have hr := refeed_normalize tbl cfg hwf l (refeedLine idx it)
    (by show it.ingredientName = _; exact hname)
    (by show it.unit = _; exact hunit)
    (by show it.location = _; exact hloc)
  obtain ⟨hrkey, hrq, hrb⟩ := hr
  have hkey2 : groupKey cfg (normalize tbl cfg (refeedLine idx it)) = it.key := by
    rw [hrkey, ← hkey]
  refine ⟨hkey2, ?_⟩
  unfold itemView mkItem
  simp only [List.map_cons, List.map_nil, List.sum_cons, List.sum_nil, add_zero]
  rw [normalize_line_eq, hrq, hrb]
  show (it.location, canonicalName it.ingredientName, it.totalQuantity, it.totalPrice, it.unit)
    = (it.location, it.ingredientName, it.totalQuantity, it.totalPrice, it.unit)
  rw [hname, canonicalName_idem]

theorem refeed_maps (tbl : UnitTable) (cfg : ConsolidationConfig) (hwf : TableWF tbl) :
    ∀ (its : List ConsolidatedItem),
      (∀ it ∈ its, ∃ l : ValidatedLine,
        it.ingredientName = canonicalName l.ingredientName ∧
        it.unit = (normalize tbl cfg l).baseUnit ∧
        it.location = l.location ∧
        it.key = groupKey cfg (normalize tbl cfg l)) →
      ∀ idx : Nat,
      (((refeedLines idx its).map (normalize tbl cfg)).map (groupKey cfg) =
        its.map (fun it => it.key)) ∧
      ((((refeedLines idx its).map (normalize tbl cfg)).map
          (fun n => mkItem (groupKey cfg n) n [])).map itemView = its.map itemView) := by
  intro its
  induction its with
  | nil => intro _ idx; exact ⟨rfl, rfl⟩
  | cons it its ih =>
    intro h idx
    obtain ⟨hkey, hview⟩ := refeed_point tbl cfg hwf it idx (h it (List.mem_cons_self _ _))
    obtain ⟨ihk, ihv⟩ := ih (fun x hx => h x (List.mem_cons_of_mem _ hx)) (idx + 1)
    constructor
    · show groupKey cfg (normalize tbl cfg (refeedLine idx it)) ::
        (((refeedLines (idx + 1) its).map (normalize tbl cfg)).map (groupKey cfg)) =
        it.key :: its.map (fun it => it.key)
      rw [hkey, ihk]
    · show itemView (mkItem (groupKey cfg (normalize tbl cfg (refeedLine idx it)))
          (normalize tbl cfg (refeedLine idx it)) []) ::
        ((((refeedLines (idx + 1) its).map (normalize tbl cfg)).map
          (fun n => mkItem (groupKey cfg n) n [])).map itemView) =
        itemView it :: its.map itemView
      rw [hview, ihv]

/-- C5: idempotence of re-consolidation: feeding the consolidated items back
in as input rows (same location, ingredient name and unit per item, with the
totals as quantity and price) and consolidating again yields items with
identical location, name, total quantity, total price and unit, in the same
order — no double-counting, no drift.  Requires a well-formed unit table and
sensible defaults (positive default quantity, non-negative default price,
non-blank default unit and location). -/
theorem c5_reconsolidation_idempotent (tbl : UnitTable) (rows : List RawRow)
    (cfg : ConsolidationConfig) (hwf : TableWF tbl)
    (hq : 0 < cfg.defaultQuantity) (hp : 0 ≤ cfg.defaultPrice)
    (hu : isBlank cfg.defaultUnit.data = false)
    (hl : isBlank cfg.defaultLocation.data = false) :
    ((normalizeAndConsolidate tbl
        ((normalizeAndConsolidate tbl rows cfg).items.map itemToRow) cfg).items.map itemView)
      = ((normalizeAndConsolidate tbl rows cfg).items.map itemView) := by
  have hlink := item_link tbl rows cfg hu hl
  have htotals : ∀ it ∈ (normalizeAndConsolidate tbl rows cfg).items,
      0 < it.totalQuantity ∧ 0 ≤ it.totalPrice := by
    intro it hit
    exact consolidate_totals cfg _ (run_lines_pos tbl rows cfg hq hp hwf.1 hwf.2.1) it hit
  have hcond : ∀ it ∈ (normalizeAndConsolidate tbl rows cfg).items,
      isBlank it.ingredientName.data = false ∧ 0 < it.totalQuantity ∧
      0 ≤ it.totalPrice ∧ isBlank it.unit.data = false ∧
      isBlank it.location.data = false := by
    intro it hit
    obtain ⟨l, hname, hunit, hloc, hkey, hnb, hub, hlb⟩ := hlink it hit
    refine ⟨?_, (htotals it hit).1, (htotals it hit).2, ?_, ?_⟩
    · rw [hname]
      exact canonChars_nonblank _ hnb
    · rw [hunit]
      exact normalize_baseUnit_nonblank tbl cfg l hwf hub
    · rw [hloc]
      exact hlb
  have hv1 : (validateAll cfg
        ((normalizeAndConsolidate tbl rows cfg).items.map itemToRow)).1 =
      refeedLines 1 (normalizeAndConsolidate tbl rows cfg).items := by
    unfold validateAll
    rw [validateGo_refeed cfg (normalizeAndConsolidate tbl rows cfg).items hcond 1]
  have hmaps := refeed_maps tbl cfg hwf (normalizeAndConsolidate tbl rows cfg).items
    (fun it hit => by
      obtain ⟨l, hname, hunit, hloc, hkey, -, -, -⟩ := hlink it hit
      exact ⟨l, hname, hunit, hloc, hkey⟩) 1
  have hnodup : (((refeedLines 1 (normalizeAndConsolidate tbl rows cfg).items).map
      (normalize tbl cfg)).map (groupKey cfg)).Nodup := by
    rw [hmaps.1]
    exact items_keys_nodup tbl rows cfg
  have hcons := consolidate_singletons cfg _ hnodup
  show (consolidate cfg ((validateAll cfg
      ((normalizeAndConsolidate tbl rows cfg).items.map itemToRow)).1.map
        (normalize tbl cfg))).map itemView =
    (normalizeAndConsolidate tbl rows cfg).items.map itemView
  rw [hv1, hcons, hmaps.2]

theorem sampleTable_wf : TableWF sampleTable := by
  refine ⟨by decide, by decide, fun dim => ?_, fun dim => by cases dim <;> decide⟩
  cases dim with
  | volume =>
    exact ⟨⟨"floz", ["fl oz", "fluid ounce"], Dimension.volume, 1⟩,
      by decide, by decide, by decide, by decide⟩
  | weight =>
    exact ⟨⟨"oz", ["ounce", "ounces"], Dimension.weight, 1⟩,
      by decide, by decide, by decide, by decide⟩
  | count =>
    exact ⟨⟨"each", [], Dimension.count, 1⟩,
      by decide, by decide, by decide, by decide⟩

/-! ## Witnesses -/

theorem c1_sum_invariant_witness :
    saltItem ∈ (normalizeAndConsolidate sampleTable [saltRow] sampleConfig).items ∧
    (saltItem.totalQuantity =
        ((memberLines sampleTable sampleConfig [saltRow] saltItem.key).map
          (fun m => m.baseQuantity)).sum ∧
      saltItem.totalPrice =
        ((memberLines sampleTable sampleConfig [saltRow] saltItem.key).map
          (fun m => m.line.price)).sum) :=
  ⟨headD_mem _ _ (by decide),
    c1_sum_invariant sampleTable [saltRow] sampleConfig saltItem (headD_mem _ _ (by decide))⟩

theorem c2_merge_iff_witness :
    (⟨⟨none, "Salt", 2, "each", "A", 3, 1⟩, 2, "each", Dimension.count, none⟩ : NormalizedLine)
      ∈ ([⟨⟨none, "Salt", 2, "each", "A", 3, 1⟩, 2, "each", Dimension.count, none⟩,
          ⟨⟨none, "Salt", 4, "each", "A", 1, 2⟩, 4, "each", Dimension.count, none⟩] :
          List NormalizedLine) ∧
    (⟨⟨none, "Salt", 4, "each", "A", 1, 2⟩, 4, "each", Dimension.count, none⟩ : NormalizedLine)
      ∈ ([⟨⟨none, "Salt", 2, "each", "A", 3, 1⟩, 2, "each", Dimension.count, none⟩,
          ⟨⟨none, "Salt", 4, "each", "A", 1, 2⟩, 4, "each", Dimension.count, none⟩] :
          List NormalizedLine) ∧
    (((∃ it ∈ consolidate sampleConfig
          [⟨⟨none, "Salt", 2, "each", "A", 3, 1⟩, 2, "each", Dimension.count, none⟩,
            ⟨⟨none, "Salt", 4, "each", "A", 1, 2⟩, 4, "each", Dimension.count, none⟩],
        (⟨⟨none, "Salt", 2, "each", "A", 3, 1⟩, 2, "each", Dimension.count, none⟩ :
          NormalizedLine) ∈ it.sourceLines ∧
        (⟨⟨none, "Salt", 4, "each", "A", 1, 2⟩, 4, "each", Dimension.count, none⟩ :
          NormalizedLine) ∈ it.sourceLines) ↔
      groupKey sampleConfig
          ⟨⟨none, "Salt", 2, "each", "A", 3, 1⟩, 2, "each", Dimension.count, none⟩ =
        groupKey sampleConfig
          ⟨⟨none, "Salt", 4, "each", "A", 1, 2⟩, 4, "each", Dimension.count, none⟩) ∧
      (sampleConfig.unitConversionEnabled = true →
        (⟨⟨none, "Salt", 2, "each", "A", 3, 1⟩, 2, "each", Dimension.count, none⟩ :
            NormalizedLine).dimension ≠
          (⟨⟨none, "Salt", 4, "each", "A", 1, 2⟩, 4, "each", Dimension.count, none⟩ :
            NormalizedLine).dimension ∨
        (⟨⟨none, "Salt", 2, "each", "A", 3, 1⟩, 2, "each", Dimension.count, none⟩ :
            NormalizedLine).baseUnit ≠
          (⟨⟨none, "Salt", 4, "each", "A", 1, 2⟩, 4, "each", Dimension.count, none⟩ :
            NormalizedLine).baseUnit →
        ¬∃ it ∈ consolidate sampleConfig
            [⟨⟨none, "Salt", 2, "each", "A", 3, 1⟩, 2, "each", Dimension.count, none⟩,
              ⟨⟨none, "Salt", 4, "each", "A", 1, 2⟩, 4, "each", Dimension.count, none⟩],
          (⟨⟨none, "Salt", 2, "each", "A", 3, 1⟩, 2, "each", Dimension.count, none⟩ :
            NormalizedLine) ∈ it.sourceLines ∧
          (⟨⟨none, "Salt", 4, "each", "A", 1, 2⟩, 4, "each", Dimension.count, none⟩ :
            NormalizedLine) ∈ it.sourceLines)) :=
  ⟨by decide, by decide,
    c2_merge_iff sampleConfig _ _ _ (by decide) (by decide)⟩

theorem c3_never_negative_witness :
    (0 : ℚ) < sampleConfig.defaultQuantity ∧ (0 : ℚ) ≤ sampleConfig.defaultPrice ∧
    (∀ d ∈ sampleTable.units, 0 < d.factorToBase) ∧
    (∀ ov ∈ sampleTable.overrides, 0 < ov.toBaseWeightFactor) ∧
    ∀ it ∈ (normalizeAndConsolidate sampleTable [negRow] sampleConfig).items,
      0 ≤ it.totalQuantity ∧ 0 ≤ it.totalPrice :=
  ⟨by decide, by decide, by decide, by decide,
    c3_never_negative sampleTable [negRow] sampleConfig (by decide) (by decide)
      (by decide) (by decide)⟩

theorem c4_skip_iff_amended_witness :
    isBlank (scenario4Row.ingredientName.getD "").data = false ∧
    (validate sampleConfig 1 scenario4Row).1 ≠ none ∧
    (∃ w ∈ (validate sampleConfig 1 scenario4Row).2,
      w.kind = WarningKind.invalidQuantity "invalid_qty") ∧
    ((validate sampleConfig 1 scenario4Row).1.map (fun l => l.quantity))
      = some sampleConfig.defaultQuantity ∧
    (∀ w ∈ (validate sampleConfig 1 scenario4Row).2,
      w.kind ≠ WarningKind.negativePrice) ∧
    ((validate sampleConfig 1 scenario4Row).1.map (fun l => l.price))
      = some sampleConfig.defaultPrice := by
  have h := (c4_skip_iff_amended sampleConfig 1 scenario4Row).2.2 (by decide)
  exact ⟨by decide, h.1, (h.2.2.1 "invalid_qty" (by decide)).1,
    (h.2.2.1 "invalid_qty" (by decide)).2, (h.2.2.2.2.2.1 (by decide)).1,
    (h.2.2.2.2.2.1 (by decide)).2⟩

theorem c6_density_override_witness :
    sampleConfig.unitConversionEnabled = true ∧
    resolveUnit sampleTable "cup" = some ⟨"cup", ["cups"], Dimension.volume, 8⟩ ∧
    resolveDensity sampleTable (canonicalName "Sugar") ⟨"cup", ["cups"], Dimension.volume, 8⟩
      = some ⟨"sugar", "cup", mkRat 141 20⟩ ∧
    ((normalize sampleTable sampleConfig ⟨none, "Sugar", 1, "cup", "Store A", 0, 1⟩).baseQuantity
      = (⟨none, "Sugar", 1, "cup", "Store A", 0, 1⟩ : ValidatedLine).quantity *
          (⟨"sugar", "cup", mkRat 141 20⟩ : DensityOverride).toBaseWeightFactor) ∧
    ((normalizeAndConsolidate sampleTable sugarRows sampleConfig).items.map
      (fun it => (it.totalQuantity, it.unit))) = [((301 : ℚ)/20, "oz")] := by
  have h := c6_density_override sampleTable sampleConfig
    ⟨none, "Sugar", 1, "cup", "Store A", 0, 1⟩ ⟨"cup", ["cups"], Dimension.volume, 8⟩
    ⟨"sugar", "cup", mkRat 141 20⟩ rfl (by decide) (by decide)
  exact ⟨rfl, by decide, by decide, h.1, h.2.2.2.2.1⟩

theorem c8_disabled_conversion_witness :
    sampleConfigNoConv.unitConversionEnabled = false ∧
    normalize sampleTable sampleConfigNoConv ⟨none, "Sugar", 1, "cup", "Store A", 0, 1⟩ =
      ⟨⟨none, "Sugar", 1, "cup", "Store A", 0, 1⟩, 1, "cup", Dimension.count, none⟩ ∧
    (normalizeAndConsolidate sampleTable sugarRows sampleConfigNoConv).items.length = 2 ∧
    (normalizeAndConsolidate sampleTable sugarRows sampleConfigNoConv).conversionsApplied
      = [] := by
  have h := c8_disabled_conversion sampleTable sampleConfigNoConv
    ⟨none, "Sugar", 1, "cup", "Store A", 0, 1⟩
    ⟨⟨none, "Sugar", 1, "cup", "Store A", 0, 1⟩, 1, "cup", Dimension.count, none⟩
    sugarRows rfl
  exact ⟨rfl, h.1, h.2.2.2.1, h.2.2.2.2⟩

theorem c5_reconsolidation_idempotent_witness :
    TableWF sampleTable ∧
    (0 : ℚ) < sampleConfig.defaultQuantity ∧
    (0 : ℚ) ≤ sampleConfig.defaultPrice ∧
    isBlank sampleConfig.defaultUnit.data = false ∧
    isBlank sampleConfig.defaultLocation.data = false ∧
    ((normalizeAndConsolidate sampleTable
        ((normalizeAndConsolidate sampleTable sugarRows sampleConfig).items.map itemToRow)
        sampleConfig).items.map itemView)
      = ((normalizeAndConsolidate sampleTable sugarRows sampleConfig).items.map itemView) :=
  ⟨sampleTable_wf, by decide, by decide, by decide, by decide,
    c5_reconsolidation_idempotent sampleTable sugarRows sampleConfig sampleTable_wf
      (by decide) (by decide) (by decide) (by decide)⟩

theorem c10_toggle_frame_witness :
    ((([⟨⟨1, "Salt", "tsp", false, none⟩, 2, []⟩, ⟨⟨2, "Eggs", "each", true, some 5⟩, 6, []⟩] :
        List ConsolidatedIngredient).map (fun c => c.ingredient.id)).Nodup) ∧
    1 ∈ (([⟨⟨1, "Salt", "tsp", false, none⟩, 2, []⟩, ⟨⟨2, "Eggs", "each", true, some 5⟩, 6, []⟩] :
        List ConsolidatedIngredient).map (fun c => c.ingredient.id)) ∧
    ∃ hlen : (togglePurchasedUpdate
        [⟨⟨1, "Salt", "tsp", false, none⟩, 2, []⟩, ⟨⟨2, "Eggs", "each", true, some 5⟩, 6, []⟩]
        1).length =
      ([⟨⟨1, "Salt", "tsp", false, none⟩, 2, []⟩, ⟨⟨2, "Eggs", "each", true, some 5⟩, 6, []⟩] :
        List ConsolidatedIngredient).length,
      ∀ i (hi : i < ([⟨⟨1, "Salt", "tsp", false, none⟩, 2, []⟩,
          ⟨⟨2, "Eggs", "each", true, some 5⟩, 6, []⟩] :
          List ConsolidatedIngredient).length),
        ((togglePurchasedUpdate
            [⟨⟨1, "Salt", "tsp", false, none⟩, 2, []⟩,
              ⟨⟨2, "Eggs", "each", true, some 5⟩, 6, []⟩] 1).get ⟨i, hlen ▸ hi⟩).totalQuantity =
            (([⟨⟨1, "Salt", "tsp", false, none⟩, 2, []⟩,
              ⟨⟨2, "Eggs", "each", true, some 5⟩, 6, []⟩] :
              List ConsolidatedIngredient).get ⟨i, hi⟩).totalQuantity ∧
        ((togglePurchasedUpdate
            [⟨⟨1, "Salt", "tsp", false, none⟩, 2, []⟩,
              ⟨⟨2, "Eggs", "each", true, some 5⟩, 6, []⟩] 1).get ⟨i, hlen ▸ hi⟩).instances =
            (([⟨⟨1, "Salt", "tsp", false, none⟩, 2, []⟩,
              ⟨⟨2, "Eggs", "each", true, some 5⟩, 6, []⟩] :
              List ConsolidatedIngredient).get ⟨i, hi⟩).instances ∧
        ((togglePurchasedUpdate
            [⟨⟨1, "Salt", "tsp", false, none⟩, 2, []⟩,
              ⟨⟨2, "Eggs", "each", true, some 5⟩, 6, []⟩] 1).get ⟨i, hlen ▸ hi⟩).ingredient.id =
            (([⟨⟨1, "Salt", "tsp", false, none⟩, 2, []⟩,
              ⟨⟨2, "Eggs", "each", true, some 5⟩, 6, []⟩] :
              List ConsolidatedIngredient).get ⟨i, hi⟩).ingredient.id ∧
        ((togglePurchasedUpdate
            [⟨⟨1, "Salt", "tsp", false, none⟩, 2, []⟩,
              ⟨⟨2, "Eggs", "each", true, some 5⟩, 6, []⟩] 1).get ⟨i, hlen ▸ hi⟩).ingredient.name =
            (([⟨⟨1, "Salt", "tsp", false, none⟩, 2, []⟩,
              ⟨⟨2, "Eggs", "each", true, some 5⟩, 6, []⟩] :
              List ConsolidatedIngredient).get ⟨i, hi⟩).ingredient.name ∧
        ((togglePurchasedUpdate
            [⟨⟨1, "Salt", "tsp", false, none⟩, 2, []⟩,
              ⟨⟨2, "Eggs", "each", true, some 5⟩, 6, []⟩] 1).get ⟨i, hlen ▸ hi⟩).ingredient.unit =
            (([⟨⟨1, "Salt", "tsp", false, none⟩, 2, []⟩,
              ⟨⟨2, "Eggs", "each", true, some 5⟩, 6, []⟩] :
              List ConsolidatedIngredient).get ⟨i, hi⟩).ingredient.unit ∧
        ((togglePurchasedUpdate
            [⟨⟨1, "Salt", "tsp", false, none⟩, 2, []⟩,
              ⟨⟨2, "Eggs", "each", true, some 5⟩, 6, []⟩]
            1).get ⟨i, hlen ▸ hi⟩).ingredient.store_id =
            (([⟨⟨1, "Salt", "tsp", false, none⟩, 2, []⟩,
              ⟨⟨2, "Eggs", "each", true, some 5⟩, 6, []⟩] :
              List ConsolidatedIngredient).get ⟨i, hi⟩).ingredient.store_id ∧
        ((([⟨⟨1, "Salt", "tsp", false, none⟩, 2, []⟩,
              ⟨⟨2, "Eggs", "each", true, some 5⟩, 6, []⟩] :
              List ConsolidatedIngredient).get ⟨i, hi⟩).ingredient.id = 1 →
          ((togglePurchasedUpdate
              [⟨⟨1, "Salt", "tsp", false, none⟩, 2, []⟩,
                ⟨⟨2, "Eggs", "each", true, some 5⟩, 6, []⟩]
              1).get ⟨i, hlen ▸ hi⟩).ingredient.is_purchased =
            !(([⟨⟨1, "Salt", "tsp", false, none⟩, 2, []⟩,
              ⟨⟨2, "Eggs", "each", true, some 5⟩, 6, []⟩] :
              List ConsolidatedIngredient).get ⟨i, hi⟩).ingredient.is_purchased) ∧
        ((([⟨⟨1, "Salt", "tsp", false, none⟩, 2, []⟩,
              ⟨⟨2, "Eggs", "each", true, some 5⟩, 6, []⟩] :
              List ConsolidatedIngredient).get ⟨i, hi⟩).ingredient.id ≠ 1 →
          (togglePurchasedUpdate
              [⟨⟨1, "Salt", "tsp", false, none⟩, 2, []⟩,
                ⟨⟨2, "Eggs", "each", true, some 5⟩, 6, []⟩] 1).get ⟨i, hlen ▸ hi⟩ =
            ([⟨⟨1, "Salt", "tsp", false, none⟩, 2, []⟩,
              ⟨⟨2, "Eggs", "each", true, some 5⟩, 6, []⟩] :
              List ConsolidatedIngredient).get ⟨i, hi⟩) :=
  ⟨by decide, by decide, c10_toggle_frame _ 1 (by decide) (by decide)⟩

end BohInfra
